import Mathlib

/-!
# pg_watcher: name normalisation, value classification, row projection, fan-out driver

A shallow embedding of `internal/watcher/watcher.go`.

* Go strings are modelled as `String` (valid UTF-8 text); byte-level operations that the
  program applies to ASCII bytes only (`s[0] >= '0'`, `ReplaceAll` with ASCII patterns)
  are modelled on characters.
* `float64` values are modelled by `F64`: a finite value `(-1)^neg * mant * 2^exp`,
  an infinity, or NaN.
* Functions and tables of the Go standard library whose contents are data (case tables,
  printable tables, shortest float formatting, float parsing) are the fields of `GoLib`.
  The general theorems hold for every `GoLib`; idempotence of the name normaliser holds
  for every `GoLib` whose case table sends a character to a lower-case one.
* The goroutines of `Run` are modelled by the passes they run: `Run` admits the databases
  in list order, and what a pass writes and how it ends is a parameter of the model.
  Where the interleaving matters, the loop, its workers and the weighted semaphore are a
  transition system (`FanStep`), and properties are proved of every reachable state.
-/

set_option autoImplicit false

namespace PgWatcher

/-! ## float64 -/

/-- A `float64`: finite `(-1)^neg * mant * 2^exp`, an infinity, or NaN. -/
inductive F64 where
  | finite (neg : Bool) (mant : Nat) (exp : Int)
  | inf (neg : Bool)
  | nan
  deriving DecidableEq, Repr

namespace F64

/-- The Go function `math.IsNaN`. -/
def isNaN : F64 → Bool
  | nan => true
  | _ => false

/-- The Go call `math.IsInf(f, 0)`: either infinity. -/
def isInf : F64 → Bool
  | inf _ => true
  | _ => false

/-- The least `k` with `n / 2^k < 2^53`, searched with `fuel` halvings. -/
def excessBits : Nat → Nat → Nat
  | 0, _ => 0
  | fuel + 1, n => if n < 2 ^ 53 then 0 else excessBits fuel (n / 2) + 1

/-- Round a natural number to 53 significant bits, ties to even: `(m, e)` with value `m * 2^e`. -/
def roundNat (n : Nat) : Nat × Nat :=
  let k := excessBits n n
  if k = 0 then (n, 0)
  else
    let q := n / 2 ^ k
    let r := n % 2 ^ k
    let half := 2 ^ (k - 1)
    if half < r ∨ (r = half ∧ q % 2 = 1) then (q + 1, k) else (q, k)

/-- The Go conversion `float64(x)` of an integer: always a finite value. -/
def ofInt (x : Int) : F64 :=
  let p := roundNat x.natAbs
  finite (decide (x < 0)) p.1 (Int.ofNat p.2)

end F64

/-! ## The Go standard library -/

/-- The data-driven parts of the Go standard library used by the program. -/
structure GoLib where
  /-- The table `unicode.ToLower` beyond ASCII. -/
  lowerTable : Char → Char
  /-- The table `strconv.IsPrint` beyond U+00FF. -/
  isPrintHigh : Char → Bool
  /-- Shortest formatting `strconv.FormatFloat(f, 'g', -1, 64)`, used by `%g` and `%v`. -/
  fmtG : F64 → String
  /-- Shortest formatting `strconv.FormatFloat(f, 'g', -1, 32)`, used by `%v` on a `float32`. -/
  fmtG32 : F64 → String
  /-- The call `strconv.ParseFloat(s, 64)`: `none` when it returns an error. -/
  parseFloat : String → Option F64

/-- The Go function `unicode.ToLower`: ASCII is handled inline (`'A'..'Z'` moved up by
`'a' - 'A'`, which is `Char.toLower`), the rest by the case table. -/
def toLowerRune (L : GoLib) (c : Char) : Char :=
  if c.toNat ≤ 127 then c.toLower else L.lowerTable c

/-- Lower-case images are themselves lower case: the property of the Unicode case table
under which lowering twice is lowering once. -/
def LowerTableStable (L : GoLib) : Prop :=
  ∀ c : Char, 127 < c.toNat → toLowerRune L (L.lowerTable c) = L.lowerTable c

/-- The Go function `strings.ToLower` on valid UTF-8 text. -/
def toLower (L : GoLib) (s : String) : String :=
  ⟨s.data.map (toLowerRune L)⟩

/-- Left-to-right replacement of non-overlapping occurrences of a non-empty `old`;
the counter is the number of characters of a matched occurrence still to be skipped. -/
def replaceAllAux (old new : List Char) : Nat → List Char → List Char
  | _, [] => []
  | skip + 1, _ :: cs => replaceAllAux old new skip cs
  | 0, c :: cs =>
    if old.isPrefixOf (c :: cs) then new ++ replaceAllAux old new (old.length - 1) cs
    else c :: replaceAllAux old new 0 cs

/-- The Go function `strings.ReplaceAll(s, old, new)` for a non-empty `old`. -/
def replaceAll (s old new : String) : String :=
  ⟨replaceAllAux old.data new.data 0 s.data⟩

/-- Does `sub` occur in the list. -/
def containsAux (sub : List Char) : List Char → Bool
  | [] => sub.isEmpty
  | c :: cs => sub.isPrefixOf (c :: cs) || containsAux sub cs

/-- The Go function `strings.Contains(s, sub)`. -/
def contains (s sub : String) : Bool :=
  containsAux sub.data s.data

/-- An occurrence of a pattern of two characters or more makes one replacement pass by a
single character strictly shorter: the loop of `normalizeName` terminates. -/
theorem replaceAllAux_length_le (old : List Char) (c : Char) :
    ∀ (l : List Char) (k : Nat), (replaceAllAux old [c] k l).length ≤ l.length := by
  intro l
  induction l with
  | nil => intro k; cases k <;> simp [replaceAllAux]
  | cons a t ih =>
    intro k
    cases k with
    | succ k => simp only [replaceAllAux, List.length_cons]; exact Nat.le_succ_of_le (ih k)
    | zero =>
      simp only [replaceAllAux]
      split
      · have := ih (old.length - 1)
        simp only [List.singleton_append, List.length_cons]
        omega
      · simp only [List.length_cons]
        exact Nat.succ_le_succ (ih 0)

theorem replaceAllAux_length_lt (old : List Char) (c : Char) (hold : 2 ≤ old.length) :
    ∀ (l : List Char), containsAux old l = true →
      (replaceAllAux old [c] 0 l).length < l.length := by
  intro l
  induction l with
  | nil =>
    intro h
    cases old with
    | nil => simp at hold
    | cons a t => simp [containsAux] at h
  | cons a t ih =>
    intro h
    simp only [replaceAllAux]
    split
    · rename_i hp
      cases t with
      | nil =>
        cases old with
        | nil => simp at hold
        | cons b u =>
          cases u with
          | nil => simp at hold
          | cons b2 u2 => simp [List.isPrefixOf] at hp
      | cons a2 t2 =>
        have hk : old.length - 1 = (old.length - 2) + 1 := by omega
        rw [hk]
        simp only [replaceAllAux, List.singleton_append, List.length_cons]
        have := replaceAllAux_length_le old c t2 (old.length - 2)
        omega
    · rename_i hp
      simp only [containsAux, Bool.or_eq_true] at h
      rcases h with h | h
      · exact absurd h hp
      · simp only [List.length_cons]
        exact Nat.succ_lt_succ (ih h)

theorem replaceAll_length_lt (s : String) (h : contains s "__" = true) :
    (replaceAll s "__" "_").length < s.length :=
  replaceAllAux_length_lt ['_', '_'] '_' (by decide) s.data h

/-- The loop `for strings.Contains(s, "__") { s = strings.ReplaceAll(s, "__", "_") }`. -/
def collapseLoop (s : String) : String :=
  if contains s "__" = true then collapseLoop (replaceAll s "__" "_") else s
termination_by s.length
decreasing_by exact replaceAll_length_lt s (by assumption)

/-- The test `s != "" && s[0] >= '0' && s[0] <= '9'`. -/
def startsWithDigit (s : String) : Bool :=
  match s.data with
  | [] => false
  | c :: _ => decide ('0'.toNat ≤ c.toNat ∧ c.toNat ≤ '9'.toNat)

/-- The function `normalizeName` of watcher.go. -/
def normalizeName (L : GoLib) (s : String) : String :=
  let s := toLower L s
  let s := replaceAll s "-" "_"
  let s := replaceAll s "." "_"
  let s := replaceAll s " " "_"
  let s := collapseLoop s
  if startsWithDigit s then "_" ++ s else s

/-! ## Cell values and the value classifier -/

/-- The integer types of a cell. -/
inductive IntKind where
  | int | int64 | int32 | int16 | int8 | uint | uint64 | uint32 | uint16 | uint8
  deriving DecidableEq, Repr

/-- A cell value returned by the driver (`any`). `float32 x` carries the value of
`float64(x)`; `other` is a value of any other dynamic type, described by what the program
can observe of it: its `fmt.Sprint` text and, when the type has the method, the result of
`Float64Value()`. -/
inductive Cell where
  | null
  | float64 (x : F64)
  | float32 (x : F64)
  | integer (k : IntKind) (x : Int)
  | jsonNumber (s : String)
  | bytes (s : String)
  | str (s : String)
  | other (text : String) (valuer : Option (F64 × Bool))
  deriving DecidableEq, Repr

/-- The float `0`. -/
def F64.zero : F64 := F64.finite false 0 0

/-- The function `toFloat64` of watcher.go. -/
def toFloat64 (L : GoLib) : Cell → F64 × Bool
  | .null => (F64.zero, false)
  | .float64 x => (x, true)
  | .float32 x => (x, true)
  | .integer _ x => (F64.ofInt x, true)
  | .jsonNumber s =>
    match L.parseFloat s with
    | some f => (f, true)
    | none => (F64.zero, false)
  | .bytes s =>
    match L.parseFloat s with
    | some f => (f, true)
    | none => (F64.zero, false)
  | .str s =>
    match L.parseFloat s with
    | some f => (f, true)
    | none => (F64.zero, false)
  | .other text valuer =>
    match L.parseFloat text with
    | some f => (f, true)
    | none =>
      match valuer with
      | some r => r
      | none => (F64.zero, false)

/-- The function `labelVal` of watcher.go: bytes as text, everything else by `fmt.Sprint`. -/
def labelVal (L : GoLib) : Cell → String
  | .bytes s => s
  | .null => "<nil>"
  | .float64 x => L.fmtG x
  | .float32 x => L.fmtG32 x
  | .integer _ x => toString x
  | .jsonNumber s => s
  | .str s => s
  | .other text _ => text

/-- The type switch `case string, []byte` of the row projector. -/
def Cell.isText : Cell → Bool
  | .str _ => true
  | .bytes _ => true
  | _ => false

/-! ## Quoting (`%q`) -/

/-- The table `lowerhex` of strconv. -/
def hexDigit (n : Nat) : Char :=
  ['0', '1', '2', '3', '4', '5', '6', '7', '8', '9', 'a', 'b', 'c', 'd', 'e', 'f'].getD (n % 16) '0'

/-- The Go function `strconv.IsPrint`: Latin-1 inline, the rest by table. -/
def isPrint (L : GoLib) (c : Char) : Bool :=
  if c.toNat ≤ 0xFF then
    (decide (0x20 ≤ c.toNat) && decide (c.toNat ≤ 0x7E)) ||
      (decide (0xA1 ≤ c.toNat) && decide (c.toNat ≠ 0xAD))
  else L.isPrintHigh c

/-- The double quote. -/
def dquote : Char := Char.ofNat 34

/-- The backslash. -/
def backslash : Char := Char.ofNat 92

/-- The function `appendEscapedRune` of strconv for the quote `"`, all runes allowed. -/
def escapeRune (L : GoLib) (c : Char) : List Char :=
  let r := c.toNat
  if c = dquote ∨ c = backslash then [backslash, c]
  else if isPrint L c then [c]
  else if r = 7 then [backslash, 'a']
  else if r = 8 then [backslash, 'b']
  else if r = 12 then [backslash, 'f']
  else if r = 10 then [backslash, 'n']
  else if r = 13 then [backslash, 'r']
  else if r = 9 then [backslash, 't']
  else if r = 11 then [backslash, 'v']
  else if r < 0x20 ∨ r = 0x7F then [backslash, 'x', hexDigit (r / 16), hexDigit r]
  else if r < 0x10000 then
    [backslash, 'u', hexDigit (r / 4096), hexDigit (r / 256), hexDigit (r / 16), hexDigit r]
  else
    [backslash, 'U', hexDigit (r / 268435456), hexDigit (r / 16777216), hexDigit (r / 1048576),
      hexDigit (r / 65536), hexDigit (r / 4096), hexDigit (r / 256), hexDigit (r / 16),
      hexDigit r]

/-- The Go function `strconv.Quote`, which formats the verb `%q` of a string. -/
def quote (L : GoLib) (s : String) : String :=
  ⟨dquote :: ((s.data.map (escapeRune L)).flatten ++ [dquote])⟩

/-- A text whose characters `%q` leaves alone: printable, no double quote, no backslash. -/
def plainText (L : GoLib) (s : String) : Bool :=
  s.data.all fun c => decide (c ≠ dquote) && decide (c ≠ backslash) && isPrint L c

/-! ## Configuration -/

/-- The struct `FlagParam`. A Go map is an association list that may be nil. -/
structure FlagParam where
  sqlQuery : List String
  labelColumnsArr : List String
  ignoredColumns : Option (List (String × Bool))
  SQLSpliter : String
  masterOnly : Bool
  replicaOnly : Bool
  datname : List String
  prefixMetric : String
  jobs : Int
  pgTimeout : Nat

/-- The Go function `unicode.IsSpace`. -/
def isSpace (c : Char) : Bool :=
  let r := c.toNat
  r = 9 || r = 10 || r = 11 || r = 12 || r = 13 || r = 32 || r = 0x85 || r = 0xA0 ||
    r = 0x1680 || (decide (0x2000 ≤ r) && decide (r ≤ 0x200A)) || r = 0x2028 || r = 0x2029 ||
    r = 0x202F || r = 0x205F || r = 0x3000

/-- The Go function `strings.TrimSpace`. -/
def trimSpace (s : String) : String :=
  ⟨((s.data.dropWhile isSpace).reverse.dropWhile isSpace).reverse⟩

/-- The function `makeForcedLabelsSet` of watcher.go: the keys of the set it builds. -/
def makeForcedLabelsSet (arr : List String) : List String :=
  arr.filterMap fun s => if trimSpace s ≠ "" then some (trimSpace s) else none

/-- The key test `_, ignored = flagParam.ignoredColumns[name]`, guarded by the nil check. -/
def isIgnored (fp : FlagParam) (name : String) : Bool :=
  match fp.ignoredColumns with
  | none => false
  | some m => m.any fun kv => kv.1 = name

/-! ## The row projector -/

/-- The struct `colMeta` of processDB. -/
structure ColMeta where
  idx : Nat
  name : String
  ignored : Bool
  forced : Bool
  label : String
  metric : String
  deriving DecidableEq, Repr

/-- The struct `mval` of processDB. -/
structure MVal where
  name : String
  val : F64
  deriving DecidableEq, Repr

/-- One entry of `metas`, as built for the column `name` at position `i`. -/
def mkMeta (L : GoLib) (fp : FlagParam) (forced : List String) (i : Nat) (name : String) :
    ColMeta where
  idx := i
  name := name
  ignored := isIgnored fp name
  forced := decide (name ∈ forced)
  label := normalizeName L name
  metric := normalizeName L (fp.prefixMetric ++ "_" ++ name)

/-- The loop `for i, fd := range fds` that builds `metas`, from position `i` on. -/
def buildMetasFrom (L : GoLib) (fp : FlagParam) (forced : List String) :
    Nat → List String → List ColMeta
  | _, [] => []
  | i, name :: rest => mkMeta L fp forced i name :: buildMetasFrom L fp forced (i + 1) rest

/-- The slice `metas` for the field descriptions `fds`. -/
def buildMetas (L : GoLib) (fp : FlagParam) (fds : List String) : List ColMeta :=
  buildMetasFrom L fp (makeForcedLabelsSet fp.labelColumnsArr) 0 fds

/-- The per-row state of the column walk: the label builder, `first`, `metricsBuf`. -/
structure RowAcc where
  lb : String
  first : Bool
  metricsBuf : List MVal
  deriving DecidableEq, Repr

/-- The label pair written by `fmt.Fprintf(&lb, "%s=\"%s\"", m.label, labelVal(v))`. -/
def labelPair (L : GoLib) (m : ColMeta) (v : Cell) : String :=
  m.label ++ "=\"" ++ labelVal L v ++ "\""

/-- Write one label pair to the builder, after a comma unless it is the first. -/
def addLabel (L : GoLib) (acc : RowAcc) (m : ColMeta) (v : Cell) : RowAcc where
  lb := acc.lb ++ (if acc.first then "" else ",") ++ labelPair L m v
  first := false
  metricsBuf := acc.metricsBuf

/-- The guard `if f, ok := toFloat64(v); ok && !math.IsNaN(f) && !math.IsInf(f, 0)` of the
row projector: the float that becomes a metric, if any. -/
def metricValue (L : GoLib) (v : Cell) : Option F64 :=
  let r := toFloat64 L v
  if r.2 && !r.1.isNaN && !r.1.isInf then some r.1 else none

/-- The body of the loop `for _, m := range metas` of processDB. -/
def walkColumn (L : GoLib) (vals : List Cell) (acc : RowAcc) (m : ColMeta) : RowAcc :=
  if m.ignored then acc
  else
    match vals.get? m.idx with
    | none => acc
    | some v =>
      if m.forced then addLabel L acc m v
      else if v.isText then addLabel L acc m v
      else
        match metricValue L v with
        | some f => { acc with metricsBuf := acc.metricsBuf ++ [⟨m.metric, f⟩] }
        | none => acc

/-- The column walk of one row. -/
def walkRow (L : GoLib) (metas : List ColMeta) (vals : List Cell) : RowAcc :=
  metas.foldl (walkColumn L vals) ⟨"", true, []⟩

/-- One `fmt.Printf` of the print loop. -/
def formatLine (L : GoLib) (labels dbname : String) (it : MVal) : String :=
  if labels ≠ "" then
    it.name ++ "\x7b" ++ labels ++ ",db=" ++ quote L dbname ++ "\x7d " ++ L.fmtG it.val ++ "\n"
  else
    it.name ++ "\x7bdb=" ++ quote L dbname ++ "\x7d " ++ L.fmtG it.val ++ "\n"

/-- The body of the loop `for rows.Next()` of processDB for a row whose values were read:
the lines it prints. A row whose value count differs from the field count prints nothing. -/
def projectRow (L : GoLib) (fp : FlagParam) (dbname : String) (fds : List String)
    (vals : List Cell) : List String :=
  if vals.length ≠ fds.length then []
  else
    let acc := walkRow L (buildMetas L fp fds) vals
    acc.metricsBuf.map (formatLine L acc.lb dbname)

/-! ## The query runner -/

/-- What `conn.Query` yields when it starts: the field descriptions, the outcome of
`rows.Values()` for each row that `rows.Next()` announces, and the final `rows.Err()`. -/
structure QueryResult where
  fds : List String
  rows : List (Except String (List Cell))
  err : Option String

/-- What a piece of the program writes and how it ends. -/
structure Output where
  stdout : List String
  log : List String
  err : Option String
  deriving DecidableEq, Repr

/-- The log line of the guard `len(vals) != len(fds)`. -/
def mismatchLog (dbname : String) (fds : List String) (vals : List Cell) : List String :=
  if vals.length ≠ fds.length then
    ["[db=" ++ dbname ++ "] row mismatch: vals=" ++ toString vals.length ++ " fds=" ++
      toString fds.length]
  else []

/-- The loop `for rows.Next()` of processDB followed by `return rows.Err()`. -/
def processRows (L : GoLib) (fp : FlagParam) (dbname : String) (fds : List String)
    (rowsErr : Option String) : List (Except String (List Cell)) → Output
  | [] => ⟨[], [], rowsErr⟩
  | .error e :: _ => ⟨[], [], some ("scan values: " ++ e)⟩
  | .ok vals :: rest =>
    let out := processRows L fp dbname fds rowsErr rest
    ⟨projectRow L fp dbname fds vals ++ out.stdout, mismatchLog dbname fds vals ++ out.log, out.err⟩

/-- The server as the program sees it: the error of `pgx.Connect` for a database name
(`none` when the connection is made) and the outcome of `conn.Query` for a database and
an SQL text. Timeouts and cancellation show as errors. -/
structure Server where
  connect : String → Option String
  query : String → String → Except String QueryResult

/-- The loop `for _, sqlText := range flagParam.sqlQuery` of processDB. -/
def processStatements (L : GoLib) (fp : FlagParam) (server : Server) (dbname : String) :
    List String → Output
  | [] => ⟨[], [], none⟩
  | sqlText :: rest =>
    match server.query dbname sqlText with
    | .error e => ⟨[], [], some ("query error: " ++ e)⟩
    | .ok q =>
      let out := processRows L fp dbname q.fds q.err q.rows
      match out.err with
      | some _ => out
      | none =>
        let more := processStatements L fp server dbname rest
        ⟨out.stdout ++ more.stdout, out.log ++ more.log, more.err⟩

/-- The function `processDB` of watcher.go; `connectDB` replaces an empty name by `postgres`. -/
def processDB (L : GoLib) (fp : FlagParam) (server : Server) (dbname : String) : Output :=
  match server.connect (if dbname = "" then "postgres" else dbname) with
  | some e => ⟨[], [], some e⟩
  | none => processStatements L fp server dbname fp.sqlQuery

/-! ## The database resolver, the role gate and the fan-out driver -/

/-- How a per-database pass ends: it returns, with or without an error, or it faults. -/
inductive PassEnd where
  | done (err : Option String)
  | fault (value : String)
  deriving DecidableEq, Repr

/-- What a per-database pass writes and how it ends. -/
structure PassResult where
  stdout : List String
  log : List String
  finish : PassEnd
  deriving DecidableEq, Repr

/-- The world around `Run`: the outcomes of the two administrative connections and
queries, the state of the parent context at each `sem.Acquire` (`some e` when it is done,
with `ctx.Err()`), and the per-database pass started at each admission. -/
structure RunEnv where
  enumConnect : Option String
  enumQuery : Except String (List (Except String String) × Option String)
  roleConnect : Option String
  roleQuery : Except String (Option (Except String Int) × Option String)
  ctxErr : Nat → Option String
  pass : Nat → String → PassResult

/-- The test `strings.EqualFold(s, "all")`: only `a`/`A` and `l`/`L` fold to `a` and `l`. -/
def equalFoldAll (s : String) : Bool :=
  decide (s.data.map Char.toLower = ['a', 'l', 'l'])

/-- The loop `for rows.Next()` of resolveDBList: `rows.Scan(&d)` for each row. -/
def scanNames : List (Except String String) → Except String (List String)
  | [] => .ok []
  | .error e :: _ => .error e
  | .ok d :: rest =>
    match scanNames rest with
    | .error e => .error e
    | .ok ds => .ok (d :: ds)

/-- The function `resolveDBList` of watcher.go. -/
def resolveDBList (fp : FlagParam) (env : RunEnv) : Except String (List String) :=
  match fp.datname with
  | first :: _ =>
    if equalFoldAll first then
      match env.enumConnect with
      | some e => .error e
      | none =>
        match env.enumQuery with
        | .error e => .error e
        | .ok (rows, rowsErr) =>
          match scanNames rows with
          | .error e => .error e
          | .ok list =>
            match rowsErr with
            | some e => .error e
            | none => .ok list
    else .ok fp.datname
  | [] => .ok fp.datname

/-- The error of the primary-required check. -/
def masterOnlyError : String := "INFO: --master-only requested but node is replica"

/-- The error of the replica-required check. -/
def replicaOnlyError : String := "INFO: --replica-only requested but node is master"

/-- The function `checkDbRoleOnce` of watcher.go: `none` is a nil error. -/
def checkDbRoleOnce (fp : FlagParam) (env : RunEnv) : Option String :=
  match env.roleConnect with
  | some e => some e
  | none =>
    match env.roleQuery with
    | .error e => some e
    | .ok (row, rowsErr) =>
      let scanned : Except String Int :=
        match row with
        | none => .ok 0
        | some r => r
      match scanned with
      | .error e => some e
      | .ok leader =>
        match rowsErr with
        | some e => some e
        | none =>
          if leader = 0 ∧ fp.masterOnly = true then some masterOnlyError
          else if leader = 1 ∧ fp.replicaOnly = true then some replicaOnlyError
          else none

/-- How `Run` ends: it returns (`none` is a nil error) or it waits forever. -/
inductive RunEnd where
  | returned (err : Option String)
  | blocked
  deriving DecidableEq, Repr

/-- What a run does: the databases whose pass was started, in admission order, the lines
and log lines of these passes (each pass taken as run to its end, passes in admission
order), and how `Run` ends. -/
structure RunReport where
  started : List String
  stdout : List String
  log : List String
  finish : RunEnd
  deriving DecidableEq, Repr

/-- The log lines of the worker goroutine around a pass. -/
def workerLog (dbname : String) (r : PassResult) : List String :=
  r.log ++
    match r.finish with
    | .done none => []
    | .done (some e) => ["DB " ++ dbname ++ ": " ++ e ++ "\n"]
    | .fault v => ["[db=" ++ dbname ++ "] panic recovered: " ++ v]

/-- The admission loop and the final `sem.Acquire(ctxParent, jobs)` of Run, from the
`k`-th acquisition on. An acquisition fails when the context is done; with a budget below
one and a live context `Acquire(ctx, 1)` never returns. -/
def fanOut (jobs : Int) (env : RunEnv) : Nat → List String → RunReport
  | k, [] =>
    match env.ctxErr k with
    | some e => ⟨[], [], [], .returned (some ("final acquire: " ++ e))⟩
    | none => ⟨[], [], [], .returned none⟩
  | k, name :: rest =>
    match env.ctxErr k with
    | some e => ⟨[], [], [], .returned (some ("failed to acquire semaphore: " ++ e))⟩
    | none =>
      if jobs < 1 then ⟨[], [], [], .blocked⟩
      else
        let r := env.pass k name
        let more := fanOut jobs env (k + 1) rest
        ⟨name :: more.started, r.stdout ++ more.stdout, workerLog name r ++ more.log,
          more.finish⟩

/-- The function `Run` of watcher.go on non-nil parameters. -/
def Run (fp : FlagParam) (env : RunEnv) : RunReport :=
  match resolveDBList fp env with
  | .error e => ⟨[], [], [], .returned (some e)⟩
  | .ok dbList =>
    match (if fp.masterOnly || fp.replicaOnly then checkDbRoleOnce fp env else none) with
    | some e => ⟨[], [], [], .returned (some e)⟩
    | none => fanOut fp.jobs env 0 dbList

/-- The pass that `Run` starts for a database on a server: `processDB`. -/
def passOf (L : GoLib) (fp : FlagParam) (server : Server) (dbname : String) : PassResult :=
  let out := processDB L fp server dbname
  ⟨out.stdout, out.log, .done out.err⟩

/-- The databases for which `resolveDBList` calls `connectDB`: the administrative
database when the first name folds to `all`, none otherwise. -/
def resolveDBListConnects (fp : FlagParam) : List String :=
  match fp.datname with
  | first :: _ => if equalFoldAll first then ["postgres"] else []
  | [] => []

/-! ## The flag surface -/

/-- The struct `ConnectionString`. -/
structure ConnectionString where
  connstr : String
  deriving DecidableEq, Repr

/-- The Go function `strings.TrimRight(s, cutset)`: every trailing character of the cutset
is removed. -/
def trimRight (s cutset : String) : String :=
  ⟨(s.data.reverse.dropWhile fun c => cutset.data.contains c).reverse⟩

/-- Left-to-right splitting at the non-overlapping occurrences of a non-empty `sep`: the
counter is the number of characters of a matched separator still to be skipped, `cur` the
piece being read, reversed. -/
def splitAux (sep : List Char) : Nat → List Char → List Char → List (List Char)
  | _, cur, [] => [cur.reverse]
  | skip + 1, cur, _ :: cs => splitAux sep skip cur cs
  | 0, cur, c :: cs =>
    if sep.isPrefixOf (c :: cs) then cur.reverse :: splitAux sep (sep.length - 1) [] cs
    else splitAux sep 0 (c :: cur) cs

/-- The Go function `strings.Split(s, sep)` for a non-empty `sep`. -/
def split (s sep : String) : List String :=
  (splitAux sep.data 0 [] s.data).map String.mk

/-- The values of the flags after `flag.Parse()`. -/
structure CmdLine where
  version : Bool
  conn : String
  pgTimeout : Nat
  dbName : String
  sqlCmd : String
  sqlFile : String
  labels : String
  ignoredColumns : String
  SQLSpliter : String
  masterOnly : Bool
  replicaOnly : Bool
  prefixMetric : String
  j : Int

/-- How `ParseFlags` ends: the process exits (`os.Exit`, `log.Fatal`) or the two records
are returned. -/
inductive ParseEnd where
  | exit (code : Nat) (message : String)
  | parsed (fp : FlagParam) (cp : ConnectionString)

/-- The SQL texts of a returned configuration. -/
def ParseEnd.sqlQuery : ParseEnd → Option (List String)
  | .exit _ _ => none
  | .parsed fp _ => some fp.sqlQuery

/-- The assignment to `flagParam.sqlQuery` that ParseFlags makes for the SQL text `t`
(the value of `-sql-cmd` or the content of the file of `-sql-file`) and the delimiter `d`;
`prev` is the slice before the call. -/
def sqlTexts (prev : List String) (t d : String) : List String :=
  if d ≠ "" then split (trimRight t ";") d else prev ++ [t]

/-- ParseFlags, first part: the assignments of `datname`, `pgTimeout`, the label columns
and the ignored columns. -/
def parseNames (g : FlagParam) (c : CmdLine) : FlagParam :=
  let g1 : FlagParam := { g with datname := split c.dbName ",", pgTimeout := c.pgTimeout }
  let g2 : FlagParam :=
    if c.labels ≠ "" then
      { g1 with labelColumnsArr := g1.labelColumnsArr ++ (split c.labels ",").map trimSpace }
    else g1
  if c.ignoredColumns ≠ "" then
    { g2 with
      ignoredColumns := some ((split c.ignoredColumns ",").map fun it => (trimSpace it, true)) }
  else g2

/-- ParseFlags, second part: the two blocks `if *sqlPtr != ""` and `if *sqlfilePtr != ""`;
an error is the error of `os.ReadFile`, which ends the process. -/
def parseSql (g : FlagParam) (readFile : String → Except String String) (c : CmdLine) :
    Except String FlagParam :=
  let g1 : FlagParam :=
    if c.sqlCmd ≠ "" then { g with sqlQuery := sqlTexts g.sqlQuery c.sqlCmd c.SQLSpliter }
    else g
  if c.sqlFile ≠ "" then
    match readFile c.sqlFile with
    | .error e => .error e
    | .ok t => .ok { g1 with sqlQuery := sqlTexts g1.sqlQuery t c.SQLSpliter }
  else .ok g1

/-- ParseFlags, last part: the delimiter, the role flags, the prefix and the budget. -/
def parseRest (g : FlagParam) (c : CmdLine) : FlagParam :=
  let g1 : FlagParam := if c.SQLSpliter ≠ "" then { g with SQLSpliter := c.SQLSpliter } else g
  let g2 : FlagParam := { g1 with masterOnly := c.masterOnly, replicaOnly := c.replicaOnly }
  let g3 : FlagParam :=
    if c.prefixMetric ≠ "" then { g2 with prefixMetric := c.prefixMetric } else g2
  { g3 with jobs := if c.j ≤ 0 then 1 else c.j }

/-- The function `ParseFlags` of watcher.go, on the parsed flag values `c`; `g` is the
package variable `flagParam` before the call and `readFile` is `os.ReadFile`. -/
def ParseFlags (build : String) (g : FlagParam) (readFile : String → Except String String)
    (c : CmdLine) : ParseEnd :=
  if c.version then .exit 0 build
  else if c.dbName = "" then .exit 1 "ERROR: -db-name must be specified (use 'all' or list)."
  else if (c.sqlCmd = "" ∧ c.sqlFile = "") ∨ (c.sqlCmd ≠ "" ∧ c.sqlFile ≠ "") then
    .exit 1 "ERROR: use either -sql-cmd or -sql-file (exactly one)."
  else
    match parseSql (parseNames g c) readFile c with
    | .error e => .exit 1 e
    | .ok g5 => .parsed (parseRest g5 c) ⟨c.conn⟩

/-- The zero value of the package variable `flagParam`, its value when the process starts. -/
def zeroFlagParam : FlagParam where
  sqlQuery := []
  labelColumnsArr := []
  ignoredColumns := none
  SQLSpliter := ""
  masterOnly := false
  replicaOnly := false
  datname := []
  prefixMetric := ""
  jobs := 0
  pgTimeout := 0

/-- The text obtained by removing one trailing `;`, if there is one, and nothing else. -/
def specTrimOneSemicolon (t : String) : String :=
  match t.data.reverse with
  | c :: rest => if c = ';' then ⟨rest.reverse⟩ else t
  | [] => t

/-- Flag values for the examples: the defaults of the flags, the database `main`, two
statements given inline with a doubled final `;`, and `;` as the delimiter. -/
def sampleCmdLine : CmdLine where
  version := false
  conn := "user=postgres host=127.0.0.1 port=5435"
  pgTimeout := 5000000000
  dbName := "main"
  sqlCmd := "select 1;select 2;;"
  sqlFile := ""
  labels := ""
  ignoredColumns := ""
  SQLSpliter := ";"
  masterOnly := false
  replicaOnly := false
  prefixMetric := "pgwatch"
  j := 1

/-- The configuration that ParseFlags returns for `sampleCmdLine` at process start. -/
def sampleParsed : FlagParam where
  sqlQuery := ["select 1", "select 2"]
  labelColumnsArr := []
  ignoredColumns := none
  SQLSpliter := ";"
  masterOnly := false
  replicaOnly := false
  datname := ["main"]
  prefixMetric := "pgwatch"
  jobs := 1
  pgTimeout := 5000000000

/-! ## `Run` on its pointer parameters -/

/-- How a call of `Run` ends: with a runtime fault, or as a run of the program. -/
inductive RunCall where
  | fault (value : String)
  | ran (report : RunReport)
  deriving DecidableEq, Repr

/-- The value of the runtime fault of a nil dereference. -/
def nilDereference : String := "runtime error: invalid memory address or nil pointer dereference"

/-- The function `Run` of watcher.go on its pointer parameters, `none` being nil: the
first two statements are `flagParam = *fp` and `connParam = *cp`. -/
def RunPointers (fp : Option FlagParam) (cp : Option ConnectionString) (env : RunEnv) :
    RunCall :=
  match fp with
  | none => .fault nilDereference
  | some f =>
    match cp with
    | none => .fault nilDereference
    | some _ => .ran (Run f env)

/-! ## The fan-out driver as a transition system -/

/-- A state of the fan-out part of `Run` with its goroutines: the databases the loop has
not admitted yet, the result of `Run` once it has returned (`some none` is a nil error),
the weight held in the semaphore, the workers admitted and not yet terminated, the
terminated workers with how they ended, and whether the parent context is done. -/
structure FanState where
  pending : List String
  ret : Option (Option String)
  cur : Int
  running : List String
  finished : List (String × PassEnd)
  cancelled : Bool

/-- The state when the loop starts: `semaphore.NewWeighted(jobs)` holds nothing. -/
def FanState.init (dbs : List String) : FanState :=
  ⟨dbs, none, 0, [], [], false⟩

/-- The steps of the fan-out driver with budget `jobs`. `sem.Acquire(ctx, n)` returns nil
when `n` fits in the free weight and may return `ctx.Err()` when the context is done;
`defer sem.Release(1)` runs when a worker terminates, however it ends. -/
inductive FanStep (jobs : Int) : FanState → FanState → Prop where
  | cancel (s : FanState) : FanStep jobs s { s with cancelled := true }
  | enter (s : FanState) (name : String) (rest : List String) :
      s.ret = none → s.pending = name :: rest → s.cur + 1 ≤ jobs →
      FanStep jobs s
        { s with pending := rest, cur := s.cur + 1, running := name :: s.running }
  | refuse (s : FanState) (name : String) (rest : List String) (e : String) :
      s.ret = none → s.pending = name :: rest → s.cancelled = true →
      FanStep jobs s { s with ret := some (some ("failed to acquire semaphore: " ++ e)) }
  | finish (s : FanState) (name : String) (outcome : PassEnd) :
      name ∈ s.running →
      FanStep jobs s
        { s with cur := s.cur - 1, running := s.running.erase name,
                 finished := (name, outcome) :: s.finished }
  | drain (s : FanState) :
      s.ret = none → s.pending = [] → s.cur + jobs ≤ jobs →
      FanStep jobs s { s with ret := some none, cur := s.cur + jobs }
  | drainFail (s : FanState) (e : String) :
      s.ret = none → s.pending = [] → s.cancelled = true →
      FanStep jobs s { s with ret := some (some ("final acquire: " ++ e)) }

/-- The states that a run with budget `jobs` on the databases `dbs` can be in. -/
inductive FanReachable (jobs : Int) (dbs : List String) : FanState → Prop where
  | init : FanReachable jobs dbs (FanState.init dbs)
  | step (s s' : FanState) : FanReachable jobs dbs s → FanStep jobs s s' →
      FanReachable jobs dbs s'

/-- The invariant of the fan-out driver: the workers not yet terminated are within the
budget and hold exactly the weight of the semaphore until the final acquisition, which
finds none of them; every database is pending, running or terminated. -/
def FanInv (jobs : Int) (dbs : List String) (s : FanState) : Prop :=
  (s.running.length : Int) ≤ jobs ∧
    (s.ret ≠ some none → s.cur = s.running.length) ∧
    (s.ret = some none → s.running = [] ∧ s.pending = []) ∧
    (s.running ++ s.finished.map Prod.fst ++ s.pending).Perm dbs

/-! ## A library instance for concrete rows -/

/-- Shortest decimal text of an integer-valued float below `10^6` in magnitude and of the
other floats used in the examples of this file; `?` stands for a text not tabulated. -/
def sampleFmt : F64 → String
  | .finite neg m 0 => if m < 1000000 then (if neg then "-" else "") ++ toString m else "?"
  | .finite false 5 (-1) => "2.5"
  | .finite _ _ _ => "?"
  | .inf false => "+Inf"
  | .inf true => "-Inf"
  | .nan => "NaN"

/-- Parse an unsigned decimal integer literal or one of `NaN`, `Inf`, `+Inf`, `-Inf`;
other texts are not tabulated. -/
def sampleParse (s : String) : Option F64 :=
  if s = "NaN" then some F64.nan
  else if s = "Inf" ∨ s = "+Inf" then some (F64.inf false)
  else if s = "-Inf" then some (F64.inf true)
  else if s.data ≠ [] ∧ s.data.all Char.isDigit then
    some (F64.ofInt (Int.ofNat (s.data.foldl (fun n c => 10 * n + (c.toNat - 48)) 0)))
  else none

/-- A library instance on which the definitions can be run: exact on ASCII text. -/
def sampleLib : GoLib where
  lowerTable := id
  isPrintHigh := fun _ => true
  fmtG := sampleFmt
  fmtG32 := sampleFmt
  parseFloat := sampleParse

/-- A configuration for the examples: prefix `pg`, no forced labels, no ignored columns. -/
def sampleFlags : FlagParam where
  sqlQuery := []
  labelColumnsArr := []
  ignoredColumns := none
  SQLSpliter := ""
  masterOnly := false
  replicaOnly := false
  datname := []
  prefixMetric := "pg"
  jobs := 1
  pgTimeout := 5

/-- A world for the examples: the administrative queries succeed, the node is a replica
(reading `0`), the context is live, the pass of `db2` returns an error and the pass of
`db3` faults. -/
def sampleEnv : RunEnv where
  enumConnect := none
  enumQuery := .ok ([.ok "db1", .ok "db2", .ok "db3"], none)
  roleConnect := none
  roleQuery := .ok (some (.ok 0), none)
  ctxErr := fun _ => none
  pass := fun _ name =>
    if name = "db2" then ⟨[], [], .done (some "query error: timeout")⟩
    else if name = "db3" then ⟨[], [], .fault "nil map"⟩
    else ⟨["pg_up\x7bdb=\"db1\"\x7d 1\n"], [], .done none⟩

/-! ## The row projection as the specification words it -/

/-- Is the column a forced label: is its name in the set built from `-labels`. -/
def isForced (fp : FlagParam) (name : String) : Bool :=
  decide (name ∈ makeForcedLabelsSet fp.labelColumnsArr)

/-- The label pair a column contributes: none when ignored; otherwise one pair
`name="value"` when the column is a forced label or its cell is a string or bytes. -/
def columnLabel (L : GoLib) (fp : FlagParam) (c : String × Cell) : Option String :=
  if isIgnored fp c.1 then none
  else if isForced fp c.1 || c.2.isText then
    some (normalizeName L c.1 ++ "=\"" ++ labelVal L c.2 ++ "\"")
  else none

/-- The metric a column contributes: its name and value when the column is not ignored,
not a forced label, not of string or bytes type, and its cell coerces to a finite number. -/
def columnMetric (L : GoLib) (fp : FlagParam) (c : String × Cell) : Option (String × F64) :=
  if isIgnored fp c.1 || isForced fp c.1 || c.2.isText then none
  else (metricValue L c.2).map fun f => (c.1, f)

/-- The label pairs of a row, in select-list order. -/
def specLabelPairs (L : GoLib) (fp : FlagParam) (fds : List String) (vals : List Cell) :
    List String :=
  (fds.zip vals).filterMap (columnLabel L fp)

/-- The metric columns of a row, in select-list order. -/
def specMetricColumns (L : GoLib) (fp : FlagParam) (fds : List String) (vals : List Cell) :
    List (String × F64) :=
  (fds.zip vals).filterMap (columnMetric L fp)

/-- The label block with the database label as `%q` writes it. -/
def labelBlock (L : GoLib) (pairs : List String) (dbname : String) : String :=
  if pairs = [] then "db=" ++ quote L dbname
  else String.intercalate "," pairs ++ ",db=" ++ quote L dbname

/-- The label block with the database name verbatim between double quotes. -/
def verbatimLabelBlock (pairs : List String) (dbname : String) : String :=
  if pairs = [] then "db=\"" ++ dbname ++ "\""
  else String.intercalate "," pairs ++ ",db=\"" ++ dbname ++ "\""

/-- An exposition line: the metric name, the label block between braces, a blank, the
value and a newline. -/
def expositionLine (L : GoLib) (name block : String) (value : F64) : String :=
  name ++ "\x7b" ++ block ++ "\x7d " ++ L.fmtG value ++ "\n"

/-- The label builder after writing `pairs` to a builder holding `lb`. -/
def joinFrom (lb : String) (first : Bool) : List String → String
  | [] => lb
  | p :: ps => joinFrom (lb ++ (if first then "" else ",") ++ p) false ps

/-! ## The reference transformation of the specification (name normaliser) -/

/-- Replace each of `-`, `.` and space with `_`. -/
def specReplaceSeparators (l : List Char) : List Char :=
  l.map fun c => if c = '-' ∨ c = '.' ∨ c = ' ' then '_' else c

/-- Replace every maximal run of `_` by a single `_`, in one pass: an underscore that is
followed by another underscore is dropped, so exactly the last of each run stays. -/
def specCollapseRuns : List Char → List Char
  | [] => []
  | [c] => [c]
  | a :: b :: t =>
    if a = '_' ∧ b = '_' then specCollapseRuns (b :: t) else a :: specCollapseRuns (b :: t)

/-- The transformation as the specification words it: lowercase; replace separators;
collapse runs of `_`; prepend `_` when the result is non-empty and starts with a digit. -/
def specNormalizeName (L : GoLib) (s : String) : String :=
  let t := specCollapseRuns (specReplaceSeparators (toLower L s).data)
  match t with
  | [] => ""
  | c :: _ => if c.isDigit then ⟨'_' :: t⟩ else ⟨t⟩

/-- The identifier pattern `[_a-z][_a-z0-9]*`. -/
def isIdentifier (s : String) : Bool :=
  match s.data with
  | [] => false
  | c :: cs =>
    (c = '_' || c.isLower) && cs.all fun d => d = '_' || d.isLower || d.isDigit

/-- The characters the normaliser is written for: ASCII letters and digits, `_`, `-`, `.`
and space. -/
def isNameChar (c : Char) : Bool :=
  c.isAlphanum || c = '_' || c = '-' || c = '.' || c = ' '

/-- A character of the class `[_a-z0-9]`. -/
def isIdentChar (c : Char) : Bool :=
  c = '_' || c.isLower || c.isDigit

/-! ## The name normaliser: proofs -/

theorem replaceAllAux_single (a b : Char) (l : List Char) :
    replaceAllAux [a] [b] 0 l = l.map fun c => if c = a then b else c := by
  induction l with
  | nil => simp [replaceAllAux]
  | cons c cs ih =>
    by_cases h : c = a
    · simp [replaceAllAux, List.isPrefixOf, h, ih]
    · have h2 : ¬ a = c := fun e => h e.symm
      simp [replaceAllAux, List.isPrefixOf, h, h2, ih]

theorem replaceAll_single_data (s : String) (a b : Char) :
    (replaceAll s ⟨[a]⟩ ⟨[b]⟩).data = s.data.map fun c => if c = a then b else c :=
  replaceAllAux_single a b s.data

theorem replace_three_eq_spec (l : List Char) :
    ((l.map fun c => if c = '-' then '_' else c).map
        fun c => if c = '.' then '_' else c).map (fun c => if c = ' ' then '_' else c)
      = specReplaceSeparators l := by
  simp only [specReplaceSeparators, List.map_map]
  apply List.map_congr_left
  intro c _
  simp only [Function.comp]
  by_cases h1 : c = '-'
  · subst h1; decide
  · by_cases h2 : c = '.'
    · subst h2; decide
    · by_cases h3 : c = ' ' <;> simp [h1, h2, h3]

/-- One pass of `ReplaceAll` with a two-character pattern, unfolded. -/
theorem replaceAllAux_pair (p q r a b : Char) (t : List Char) :
    replaceAllAux [p, q] [r] 0 (a :: b :: t) =
      if p = a ∧ q = b then r :: replaceAllAux [p, q] [r] 0 t
      else a :: replaceAllAux [p, q] [r] 0 (b :: t) := by
  by_cases ha : p = a <;> by_cases hb : q = b <;>
    simp [replaceAllAux, List.isPrefixOf, ha, hb]

theorem replacePair_cons_cons (a b : Char) (t : List Char) :
    replaceAllAux ['_', '_'] ['_'] 0 (a :: b :: t) =
      if a = '_' ∧ b = '_' then '_' :: replaceAllAux ['_', '_'] ['_'] 0 t
      else a :: replaceAllAux ['_', '_'] ['_'] 0 (b :: t) := by
  rw [replaceAllAux_pair]
  by_cases h : a = '_' ∧ b = '_'
  · rw [if_pos h, if_pos ⟨h.1.symm, h.2.symm⟩]
  · rw [if_neg h, if_neg (fun h2 => h ⟨h2.1.symm, h2.2.symm⟩)]

theorem specCollapseRuns_cons_cons (a b : Char) (t : List Char) :
    specCollapseRuns (a :: b :: t) =
      if a = '_' ∧ b = '_' then specCollapseRuns (b :: t) else a :: specCollapseRuns (b :: t) := by
  simp [specCollapseRuns]

theorem specCollapseRuns_cons_of_ne (c : Char) (hc : c ≠ '_') (l : List Char) :
    specCollapseRuns (c :: l) = c :: specCollapseRuns l := by
  cases l with
  | nil => simp [specCollapseRuns]
  | cons b t => rw [specCollapseRuns_cons_cons, if_neg (fun h => hc h.1)]

theorem specCollapseRuns_replacePair_aux :
    ∀ (n : Nat) (t : List Char), t.length ≤ n → ∀ c : Char,
      specCollapseRuns (c :: replaceAllAux ['_', '_'] ['_'] 0 t) = specCollapseRuns (c :: t) := by
  intro n
  induction n with
  | zero =>
    intro t ht c
    have : t = [] := List.length_eq_zero.mp (Nat.le_zero.mp ht)
    subst this
    simp [replaceAllAux]
  | succ n ih =>
    intro t ht c
    match t, ht with
    | [], _ => simp [replaceAllAux]
    | [x], _ => simp [replaceAllAux, List.isPrefixOf]
    | x :: y :: u, ht =>
      have hu : u.length ≤ n := by simp only [List.length_cons] at ht; omega
      have hyu : (y :: u).length ≤ n := by simp only [List.length_cons] at ht ⊢; omega
      rw [replacePair_cons_cons]
      by_cases h : x = '_' ∧ y = '_'
      · rw [if_pos h]
        obtain ⟨hx, hy⟩ := h
        subst hx; subst hy
        have e1 : specCollapseRuns ('_' :: '_' :: u) = specCollapseRuns ('_' :: u) := by
          rw [specCollapseRuns_cons_cons, if_pos ⟨rfl, rfl⟩]
        rw [specCollapseRuns_cons_cons c '_' ('_' :: u), e1, ← ih u hu '_']
        by_cases hc : c = '_'
        · subst hc
          rw [if_pos ⟨rfl, rfl⟩]
          cases hr : replaceAllAux ['_', '_'] ['_'] 0 u with
          | nil => simp [specCollapseRuns]
          | cons z w =>
            rw [specCollapseRuns_cons_cons '_' '_' (z :: w), if_pos ⟨rfl, rfl⟩]
        · rw [if_neg (fun h => hc h.1), specCollapseRuns_cons_of_ne c hc]
      · rw [if_neg h]
        rw [specCollapseRuns_cons_cons c x _, specCollapseRuns_cons_cons c x _, ih (y :: u) hyu x]

theorem specCollapseRuns_replacePair (t : List Char) :
    specCollapseRuns (replaceAllAux ['_', '_'] ['_'] 0 t) = specCollapseRuns t := by
  have h := specCollapseRuns_replacePair_aux t.length t (Nat.le_refl _) 'a'
  rw [specCollapseRuns_cons_of_ne 'a' (by decide), specCollapseRuns_cons_of_ne 'a' (by decide)] at h
  exact List.cons_injective h

theorem containsAux_pair_cons_cons (a b : Char) (t : List Char) :
    containsAux ['_', '_'] (a :: b :: t) =
      (decide (a = '_' ∧ b = '_') || containsAux ['_', '_'] (b :: t)) := by
  have e : containsAux ['_', '_'] (a :: b :: t) =
      (['_', '_'].isPrefixOf (a :: b :: t) || containsAux ['_', '_'] (b :: t)) := rfl
  have p : ['_', '_'].isPrefixOf (a :: b :: t) = decide (a = '_' ∧ b = '_') := by
    by_cases ha : a = '_'
    · by_cases hb : b = '_'
      · subst ha; subst hb; simp [List.isPrefixOf]
      · subst ha
        have hb2 : ¬ '_' = b := fun e => hb e.symm
        simp [List.isPrefixOf, hb, hb2]
    · have ha2 : ¬ '_' = a := fun e => ha e.symm
      simp [List.isPrefixOf, ha, ha2]
  rw [e, p]

/-- A text without two adjacent underscores is left alone by run collapsing. -/
theorem specCollapseRuns_of_not_contains :
    ∀ l : List Char, containsAux ['_', '_'] l = false → specCollapseRuns l = l := by
  intro l
  induction l with
  | nil => intro _; rfl
  | cons a t ih =>
    intro h
    cases t with
    | nil => rfl
    | cons b u =>
      rw [containsAux_pair_cons_cons] at h
      simp only [Bool.or_eq_false_iff, decide_eq_false_iff_not] at h
      rw [specCollapseRuns_cons_cons, if_neg h.1, ih h.2]

/-- The repeated `ReplaceAll("__", "_")` loop computes one-pass run collapsing. -/
theorem collapseLoop_eq_spec (s : String) : collapseLoop s = ⟨specCollapseRuns s.data⟩ := by
  induction s using collapseLoop.induct with
  | case1 s h ih =>
    rw [collapseLoop, if_pos h, ih]
    show String.mk (specCollapseRuns (replaceAllAux ['_', '_'] ['_'] 0 s.data)) = _
    rw [specCollapseRuns_replacePair]
  | case2 s h =>
    rw [collapseLoop, if_neg h]
    have h2 : containsAux ['_', '_'] s.data = false := by
      simpa [contains] using h
    rw [specCollapseRuns_of_not_contains _ h2]

theorem digit_test_eq_isDigit (c : Char) :
    decide ('0'.toNat ≤ c.toNat ∧ c.toNat ≤ '9'.toNat) = c.isDigit := by
  simp only [Char.isDigit, Char.toNat, ge_iff_le, UInt32.le_def, Bool.decide_and]
  rfl

theorem replace_separators_eq_spec (s : String) :
    replaceAll (replaceAll (replaceAll s "-" "_") "." "_") " " "_"
      = ⟨specReplaceSeparators s.data⟩ := by
  apply String.ext
  show (replaceAll (replaceAll (replaceAll s ⟨['-']⟩ ⟨['_']⟩) ⟨['.']⟩ ⟨['_']⟩) ⟨[' ']⟩ ⟨['_']⟩).data
    = specReplaceSeparators s.data
  rw [replaceAll_single_data, replaceAll_single_data, replaceAll_single_data,
    replace_three_eq_spec]

/-- The code computes the reference transformation. -/
theorem normalizeName_eq_spec (L : GoLib) (s : String) :
    normalizeName L s = specNormalizeName L s := by
  unfold normalizeName specNormalizeName
  simp only [replace_separators_eq_spec, collapseLoop_eq_spec]
  cases specCollapseRuns (specReplaceSeparators (toLower L s).data) with
  | nil => rfl
  | cons c t =>
    simp only [startsWithDigit, digit_test_eq_isDigit]
    cases c.isDigit <;> rfl

theorem normalizeName_fun : normalizeName = specNormalizeName := by
  funext L s
  exact normalizeName_eq_spec L s

/-! ### Idempotence -/

set_option maxRecDepth 100000 in
theorem ascii_toLower_table : ∀ n, n < 128 →
    ((Char.ofNat n).toLower.toNat ≤ 127 ∧
      (Char.ofNat n).toLower.toLower = (Char.ofNat n).toLower) := by
  decide

theorem ascii_toLower (c : Char) (h : c.toNat ≤ 127) :
    c.toLower.toNat ≤ 127 ∧ c.toLower.toLower = c.toLower := by
  have := ascii_toLower_table c.toNat (by omega)
  rwa [Char.ofNat_toNat] at this

theorem toLowerRune_idem (L : GoLib) (hL : LowerTableStable L) (c : Char) :
    toLowerRune L (toLowerRune L c) = toLowerRune L c := by
  by_cases h : c.toNat ≤ 127
  · have := ascii_toLower c h
    simp only [toLowerRune, if_pos h, if_pos this.1, this.2]
  · have e : toLowerRune L c = L.lowerTable c := by simp only [toLowerRune, if_neg h]
    rw [e]
    exact hL c (by omega)

/-- A character that both lowering and separator replacement leave alone. -/
def StableChar (L : GoLib) (c : Char) : Prop :=
  toLowerRune L c = c ∧ (if c = '-' ∨ c = '.' ∨ c = ' ' then '_' else c) = c

theorem stableChar_underscore (L : GoLib) : StableChar L '_' :=
  ⟨by rw [toLowerRune, if_pos (by decide)]; decide, by decide⟩

theorem stableChar_of_pass (L : GoLib) (hL : LowerTableStable L) (l : List Char) :
    ∀ c ∈ specReplaceSeparators (l.map (toLowerRune L)), StableChar L c := by
  intro c hc
  simp only [specReplaceSeparators, List.map_map, List.mem_map, Function.comp] at hc
  obtain ⟨a, _, rfl⟩ := hc
  by_cases hs : toLowerRune L a = '-' ∨ toLowerRune L a = '.' ∨ toLowerRune L a = ' '
  · rw [if_pos hs]; exact stableChar_underscore L
  · rw [if_neg hs]
    exact ⟨toLowerRune_idem L hL a, if_neg hs⟩

theorem stable_pass_id (L : GoLib) (l : List Char) (h : ∀ c ∈ l, StableChar L c) :
    specReplaceSeparators (l.map (toLowerRune L)) = l := by
  simp only [specReplaceSeparators, List.map_map]
  conv_rhs => rw [← List.map_id l]
  apply List.map_congr_left
  intro c hc
  simp only [Function.comp, id]
  rw [(h c hc).1]
  exact (h c hc).2

theorem specCollapseRuns_mem : ∀ (l : List Char) (c : Char), c ∈ specCollapseRuns l → c ∈ l := by
  intro l
  induction l with
  | nil => intro c h; exact h
  | cons a t ih =>
    intro c h
    cases t with
    | nil => exact h
    | cons b u =>
      rw [specCollapseRuns_cons_cons] at h
      by_cases hab : a = '_' ∧ b = '_'
      · rw [if_pos hab] at h
        exact List.mem_cons_of_mem _ (ih c h)
      · rw [if_neg hab] at h
        rcases List.mem_cons.mp h with h | h
        · rw [h]; exact List.mem_cons_self _ _
        · exact List.mem_cons_of_mem _ (ih c h)

/-- Run collapsing keeps the first character. -/
theorem specCollapseRuns_head : ∀ (t : List Char) (b : Char),
    ∃ w, specCollapseRuns (b :: t) = b :: w := by
  intro t
  induction t with
  | nil => intro b; exact ⟨[], rfl⟩
  | cons y u ih =>
    intro b
    rw [specCollapseRuns_cons_cons]
    by_cases h : b = '_' ∧ y = '_'
    · rw [if_pos h]
      obtain ⟨w, hw⟩ := ih y
      exact ⟨w, by rw [hw, h.1, h.2]⟩
    · rw [if_neg h]
      exact ⟨_, rfl⟩

/-- The collapsed text has no two adjacent underscores. -/
theorem specCollapseRuns_no_pair :
    ∀ l : List Char, containsAux ['_', '_'] (specCollapseRuns l) = false := by
  intro l
  induction l with
  | nil => rfl
  | cons a t ih =>
    cases t with
    | nil => simp [specCollapseRuns, containsAux, List.isPrefixOf]
    | cons b u =>
      rw [specCollapseRuns_cons_cons]
      by_cases hab : a = '_' ∧ b = '_'
      · rw [if_pos hab]; exact ih
      · rw [if_neg hab]
        obtain ⟨w, hw⟩ := specCollapseRuns_head u b
        rw [hw] at ih ⊢
        rw [containsAux_pair_cons_cons, ih]
        simp only [Bool.or_false, decide_eq_false_iff_not]
        exact hab

theorem specCollapseRuns_idem (l : List Char) :
    specCollapseRuns (specCollapseRuns l) = specCollapseRuns l :=
  specCollapseRuns_of_not_contains _ (specCollapseRuns_no_pair l)

/-- A text of stable characters, without adjacent underscores and not digit-leading, is a
fixed point of the reference transformation. -/
theorem specNormalizeName_fixed (L : GoLib) (r : List Char)
    (hst : ∀ c ∈ r, StableChar L c) (hnp : specCollapseRuns r = r)
    (hd : ∀ c t, r = c :: t → c.isDigit = false) :
    specNormalizeName L ⟨r⟩ = ⟨r⟩ := by
  have e : specCollapseRuns (specReplaceSeparators (toLower L ⟨r⟩).data) = r := by
    show specCollapseRuns (specReplaceSeparators (r.map (toLowerRune L))) = r
    rw [stable_pass_id L r hst, hnp]
  unfold specNormalizeName
  simp only [e]
  cases r with
  | nil => rfl
  | cons c t => simp only [hd c t rfl]; rfl

theorem specNormalizeName_idem (L : GoLib) (hL : LowerTableStable L) (s : String) :
    specNormalizeName L (specNormalizeName L s) = specNormalizeName L s := by
  have hst : ∀ c ∈ specCollapseRuns (specReplaceSeparators (toLower L s).data),
      StableChar L c := fun c hc =>
    stableChar_of_pass L hL s.data c (specCollapseRuns_mem _ c hc)
  have hid := specCollapseRuns_idem (specReplaceSeparators (toLower L s).data)
  unfold specNormalizeName at hst hid ⊢
  simp only []
  generalize specCollapseRuns (specReplaceSeparators (toLower L s).data) = t at hst hid
  cases t with
  | nil => exact specNormalizeName_fixed L [] (by simp) rfl (by simp)
  | cons c t =>
    simp only []
    cases hc : c.isDigit with
    | false =>
      simp only [Bool.false_eq_true, if_false]
      refine specNormalizeName_fixed L (c :: t) hst hid ?_
      intro c2 t2 h
      cases h
      exact hc
    | true =>
      simp only [if_true]
      have hne : c ≠ '_' := by
        intro h
        rw [h] at hc
        exact absurd hc (by decide)
      refine specNormalizeName_fixed L ('_' :: c :: t) ?_ ?_ ?_
      · intro d hd
        rcases List.mem_cons.mp hd with h | h
        · rw [h]; exact stableChar_underscore L
        · exact hst d h
      · rw [specCollapseRuns_cons_cons, if_neg (fun h => hne h.2), hid]
      · intro c2 t2 h
        cases h
        decide

theorem sampleLib_stable : LowerTableStable sampleLib := by
  intro c hc
  have h : ¬ c.toNat ≤ 127 := by omega
  show toLowerRune sampleLib c = c
  rw [toLowerRune, if_neg h]
  rfl

theorem collapseLoop_no_pair (s : String) : contains (collapseLoop s) "__" = false := by
  rw [collapseLoop_eq_spec]
  exact specCollapseRuns_no_pair s.data

/-! ## The row projector: proofs -/

theorem get?_append_cons_length {α : Type} (pre : List α) (v : α) (suf : List α) :
    (pre ++ v :: suf).get? pre.length = some v := by
  induction pre with
  | nil => rfl
  | cons a t ih => simpa using ih

theorem joinFrom_false_eq_go (ps : List String) (lb : String) :
    joinFrom lb false ps = String.intercalate.go lb "," ps := by
  induction ps generalizing lb with
  | nil => rfl
  | cons p ps ih =>
    show joinFrom (lb ++ "," ++ p) false ps = String.intercalate.go (lb ++ "," ++ p) "," ps
    exact ih _

theorem joinFrom_empty (ps : List String) :
    joinFrom "" true ps = String.intercalate "," ps := by
  cases ps with
  | nil => rfl
  | cons p ps =>
    show joinFrom ("" ++ "" ++ p) false ps = String.intercalate.go p "," ps
    have e : ("" ++ "" ++ p : String) = p := by
      apply String.ext
      simp
    rw [e]
    exact joinFrom_false_eq_go ps p

/-- The step of the column walk on the column `name` at position `i` holding `v`, by the
contribution of the column. -/
theorem walkColumn_mkMeta (L : GoLib) (fp : FlagParam) (vals : List Cell) (acc : RowAcc)
    (i : Nat) (name : String) (v : Cell) (hv : vals.get? i = some v) :
    walkColumn L vals acc (mkMeta L fp (makeForcedLabelsSet fp.labelColumnsArr) i name) =
      ⟨joinFrom acc.lb acc.first (columnLabel L fp (name, v)).toList,
        acc.first && (columnLabel L fp (name, v)).toList.isEmpty,
        acc.metricsBuf ++ ((columnMetric L fp (name, v)).toList.map fun c =>
          ⟨normalizeName L (fp.prefixMetric ++ "_" ++ c.1), c.2⟩)⟩ := by
  have hv : vals[i]? = some v := by simpa using hv
  cases hi : isIgnored fp name with
  | true =>
    simp [walkColumn, mkMeta, columnLabel, columnMetric, hi, joinFrom]
  | false =>
    cases hf : isForced fp name with
    | true =>
      have hf2 : name ∈ makeForcedLabelsSet fp.labelColumnsArr := by
        simpa [isForced] using hf
      simp [walkColumn, mkMeta, columnLabel, columnMetric, hi, hf, hf2, hv, joinFrom,
        addLabel, labelPair]
    | false =>
      have hf2 : name ∉ makeForcedLabelsSet fp.labelColumnsArr := by
        simpa [isForced] using hf
      cases ht : v.isText with
      | true =>
        simp [walkColumn, mkMeta, columnLabel, columnMetric, hi, hf, hf2, hv, ht, joinFrom,
          addLabel, labelPair]
      | false =>
        cases hm : metricValue L v with
        | none =>
          simp [walkColumn, mkMeta, columnLabel, columnMetric, hi, hf, hf2, hv, ht, hm, joinFrom]
        | some f =>
          simp [walkColumn, mkMeta, columnLabel, columnMetric, hi, hf, hf2, hv, ht, hm, joinFrom]

theorem joinFrom_append (lb : String) (first : Bool) (ps qs : List String) :
    joinFrom (joinFrom lb first ps) (first && ps.isEmpty) qs = joinFrom lb first (ps ++ qs) := by
  induction ps generalizing lb first with
  | nil => simp [joinFrom]
  | cons p ps ih =>
    simp only [joinFrom, List.isEmpty_cons, Bool.and_false, List.cons_append]
    have := ih (lb ++ (if first = true then "" else ",") ++ p) false
    simpa using this

/-- The column walk from position `i` on, by the contributions of the columns. -/
theorem walk_from (L : GoLib) (fp : FlagParam) :
    ∀ (rest : List String) (i : Nat) (pre suf : List Cell) (acc : RowAcc),
      pre.length = i → suf.length = rest.length →
      (buildMetasFrom L fp (makeForcedLabelsSet fp.labelColumnsArr) i rest).foldl
          (walkColumn L (pre ++ suf)) acc =
        ⟨joinFrom acc.lb acc.first ((rest.zip suf).filterMap (columnLabel L fp)),
          acc.first && ((rest.zip suf).filterMap (columnLabel L fp)).isEmpty,
          acc.metricsBuf ++ (((rest.zip suf).filterMap (columnMetric L fp)).map fun c =>
            ⟨normalizeName L (fp.prefixMetric ++ "_" ++ c.1), c.2⟩)⟩ := by
  intro rest
  induction rest with
  | nil =>
    intro i pre suf acc _ _
    simp [buildMetasFrom, joinFrom]
  | cons name rest ih =>
    intro i pre suf acc hpre hsuf
    cases suf with
    | nil => simp at hsuf
    | cons v suf =>
      have hv : (pre ++ v :: suf).get? i = some v := by
        rw [← hpre]; exact get?_append_cons_length pre v suf
      have hsplit : pre ++ v :: suf = (pre ++ [v]) ++ suf := by simp
      simp only [buildMetasFrom, List.foldl_cons]
      rw [walkColumn_mkMeta L fp (pre ++ v :: suf) acc i name v hv]
      rw [hsplit, ih (i + 1) (pre ++ [v]) suf _ (by simp [hpre]) (by simpa using hsuf)]
      simp only [List.zip_cons_cons, List.filterMap_cons]
      cases hl : columnLabel L fp (name, v) <;> cases hm : columnMetric L fp (name, v) <;>
        simp [joinFrom]

theorem intercalate_go_length (sep : String) (l : List String) (acc : String) :
    acc.length ≤ (String.intercalate.go acc sep l).length := by
  induction l generalizing acc with
  | nil => exact Nat.le_refl _
  | cons a t ih =>
    show acc.length ≤ (String.intercalate.go (acc ++ sep ++ a) sep t).length
    refine Nat.le_trans ?_ (ih _)
    simp only [String.length_append]
    omega

theorem intercalate_cons_ne_empty (sep p : String) (ps : List String) (hp : p ≠ "") :
    String.intercalate sep (p :: ps) ≠ "" := by
  intro h
  have h1 : p.length ≤ (String.intercalate sep (p :: ps)).length :=
    intercalate_go_length sep ps p
  rw [h] at h1
  have h2 : p.length = 0 := Nat.le_zero.mp h1
  exact hp (String.ext (List.length_eq_zero.mp h2))

theorem columnLabel_ne_empty (L : GoLib) (fp : FlagParam) (c : String × Cell) (p : String)
    (h : columnLabel L fp c = some p) : p ≠ "" := by
  unfold columnLabel at h
  split at h
  · cases h
  · split at h
    · cases h
      intro e
      have := congrArg String.length e
      simp only [String.length_append] at this
      have h3 : ("\"" : String).length = 1 := rfl
      have h4 : ("" : String).length = 0 := rfl
      omega
    · cases h

theorem specLabelPairs_join_eq_empty_iff (L : GoLib) (fp : FlagParam) (fds : List String)
    (vals : List Cell) :
    String.intercalate "," (specLabelPairs L fp fds vals) = "" ↔
      specLabelPairs L fp fds vals = [] := by
  constructor
  · intro h
    cases hp : specLabelPairs L fp fds vals with
    | nil => rfl
    | cons p ps =>
      exfalso
      rw [hp] at h
      have hmem : p ∈ specLabelPairs L fp fds vals := by rw [hp]; exact List.mem_cons_self _ _
      obtain ⟨c, _, hc⟩ := List.mem_filterMap.mp hmem
      exact intercalate_cons_ne_empty "," p ps (columnLabel_ne_empty L fp c p hc) h
  · intro h
    rw [h]
    rfl

/-- The column walk of a row whose value count matches the field count. -/
theorem walkRow_eq (L : GoLib) (fp : FlagParam) (fds : List String) (vals : List Cell)
    (h : vals.length = fds.length) :
    walkRow L (buildMetas L fp fds) vals =
      ⟨String.intercalate "," (specLabelPairs L fp fds vals),
        (specLabelPairs L fp fds vals).isEmpty,
        (specMetricColumns L fp fds vals).map fun c =>
          ⟨normalizeName L (fp.prefixMetric ++ "_" ++ c.1), c.2⟩⟩ := by
  have := walk_from L fp fds 0 [] vals ⟨"", true, []⟩ rfl h
  simp only [List.nil_append, Bool.true_and] at this
  rw [walkRow, buildMetas, this, joinFrom_empty]
  rfl

theorem formatLine_eq (L : GoLib) (fp : FlagParam) (fds : List String) (vals : List Cell)
    (dbname : String) (it : MVal) :
    formatLine L (String.intercalate "," (specLabelPairs L fp fds vals)) dbname it =
      expositionLine L it.name (labelBlock L (specLabelPairs L fp fds vals) dbname) it.val := by
  unfold formatLine expositionLine labelBlock
  by_cases hp : specLabelPairs L fp fds vals = []
  · have hl := (specLabelPairs_join_eq_empty_iff L fp fds vals).mpr hp
    rw [if_neg (not_not.mpr hl), if_pos hp]
    have e : ("\x7bdb=" : String) = "\x7b" ++ "db=" := rfl
    rw [e]
    simp only [String.append_assoc]
  · have hl : String.intercalate "," (specLabelPairs L fp fds vals) ≠ "" :=
      fun e => hp ((specLabelPairs_join_eq_empty_iff L fp fds vals).mp e)
    rw [if_pos hl, if_neg hp]
    simp only [String.append_assoc]

/-- The lines of a row: one per metric column, in select-list order, all with the label
block of the row. -/
theorem projectRow_eq (L : GoLib) (fp : FlagParam) (dbname : String) (fds : List String)
    (vals : List Cell) (h : vals.length = fds.length) :
    projectRow L fp dbname fds vals =
      (specMetricColumns L fp fds vals).map fun c =>
        expositionLine L (normalizeName L (fp.prefixMetric ++ "_" ++ c.1))
          (labelBlock L (specLabelPairs L fp fds vals) dbname) c.2 := by
  unfold projectRow
  rw [if_neg (not_not.mpr h)]
  simp only [walkRow_eq L fp fds vals h, List.map_map]
  apply List.map_congr_left
  intro c _
  exact formatLine_eq L fp fds vals dbname _

theorem quote_plain (L : GoLib) (s : String) (h : plainText L s = true) :
    quote L s = "\"" ++ s ++ "\"" := by
  have hflat : ∀ l : List Char,
      (l.all fun c => decide (c ≠ dquote) && decide (c ≠ backslash) && isPrint L c) = true →
        (l.map (escapeRune L)).flatten = l := by
    intro l
    induction l with
    | nil => intro _; rfl
    | cons c t ih =>
      intro hl
      simp only [List.all_cons, Bool.and_eq_true, decide_eq_true_eq] at hl
      obtain ⟨⟨⟨h1, h2⟩, h3⟩, h4⟩ := hl
      have hc : escapeRune L c = [c] := by
        unfold escapeRune
        simp only []
        rw [if_neg (by rintro (h | h); exact h1 h; exact h2 h), if_pos h3]
      simp only [List.map_cons, List.flatten_cons, hc, List.singleton_append]
      rw [ih (by simpa [List.all_eq_true] using h4)]
  apply String.ext
  show dquote :: ((s.data.map (escapeRune L)).flatten ++ [dquote]) = _
  rw [hflat s.data h]
  rfl

theorem metricValue_eq_some (L : GoLib) (v : Cell) (f : F64) (h : metricValue L v = some f) :
    toFloat64 L v = (f, true) ∧ f.isNaN = false ∧ f.isInf = false := by
  unfold metricValue at h
  simp only [] at h
  split at h
  · rename_i hc
    cases h
    simp only [Bool.and_eq_true, Bool.not_eq_true', Bool.not_eq_eq_eq_not, Bool.not_true] at hc
    exact ⟨Prod.ext rfl hc.1.1, hc.1.2, hc.2⟩
  · cases h

theorem walkColumn_finite (L : GoLib) (vals : List Cell) (acc : RowAcc) (m : ColMeta)
    (h : ∀ it ∈ acc.metricsBuf, it.val.isNaN = false ∧ it.val.isInf = false) :
    ∀ it ∈ (walkColumn L vals acc m).metricsBuf, it.val.isNaN = false ∧ it.val.isInf = false := by
  unfold walkColumn
  split
  · exact h
  · split
    · exact h
    · split
      · exact h
      · split
        · exact h
        · split
          · rename_i v _ _ f hf
            intro it hit
            simp only [List.mem_append, List.mem_singleton] at hit
            rcases hit with hit | hit
            · exact h it hit
            · subst hit
              exact (metricValue_eq_some L _ _ hf).2
          · exact h

theorem walkRow_finite (L : GoLib) (metas : List ColMeta) (vals : List Cell) :
    ∀ it ∈ (walkRow L metas vals).metricsBuf, it.val.isNaN = false ∧ it.val.isInf = false := by
  unfold walkRow
  suffices hgen : ∀ (ms : List ColMeta) (acc : RowAcc),
      (∀ it ∈ acc.metricsBuf, it.val.isNaN = false ∧ it.val.isInf = false) →
        ∀ it ∈ (ms.foldl (walkColumn L vals) acc).metricsBuf,
          it.val.isNaN = false ∧ it.val.isInf = false from
    hgen metas ⟨"", true, []⟩ (by intro it hit; cases hit)
  intro ms
  induction ms with
  | nil => intro acc h; exact h
  | cons m ms ih =>
    intro acc h
    exact ih _ (walkColumn_finite L vals acc m h)

theorem metricValue_non_finite (L : GoLib) (v : Cell)
    (h : (toFloat64 L v).1.isNaN = true ∨ (toFloat64 L v).1.isInf = true) :
    metricValue L v = none := by
  unfold metricValue
  simp only []
  rcases h with h | h <;> simp [h]

theorem zip_append_cons {α β : Type} (l₁ l₂ : List α) (r₁ r₂ : List β) (a : α) (b : β)
    (h : r₁.length = l₁.length) :
    (l₁ ++ a :: l₂).zip (r₁ ++ b :: r₂) = l₁.zip r₁ ++ (a, b) :: l₂.zip r₂ := by
  induction l₁ generalizing r₁ with
  | nil =>
    cases r₁ with
    | nil => rfl
    | cons x t => simp at h
  | cons x t ih =>
    cases r₁ with
    | nil => simp at h
    | cons y u =>
      simp only [List.cons_append, List.zip_cons_cons, List.cons.injEq, true_and]
      exact ih u (by simpa using h)

theorem zip_append_same {α β : Type} (l₁ l₂ : List α) (r₁ r₂ : List β)
    (h : r₁.length = l₁.length) :
    (l₁ ++ l₂).zip (r₁ ++ r₂) = l₁.zip r₁ ++ l₂.zip r₂ := by
  induction l₁ generalizing r₁ with
  | nil =>
    cases r₁ with
    | nil => rfl
    | cons x t => simp at h
  | cons x t ih =>
    cases r₁ with
    | nil => simp at h
    | cons y u =>
      simp only [List.cons_append, List.zip_cons_cons, List.cons.injEq, true_and]
      exact ih u (by simpa using h)

/-! ## The claims on the row projector -/

/-- C1: for every row whose value count matches the column descriptors, the row projector
emits exactly one line per column that is not ignored, not a forced label, not of string or
bytes type and whose cell coerces to a finite number; the lines are in select-list order,
the metric name of each is `normalizeName(prefix + "_" + column name)`, and all lines of the
row carry the same label block; a row with no such column emits no line. -/
theorem projectRow_one_line_per_metric_column (L : GoLib) (fp : FlagParam) (dbname : String)
    (fds : List String) (vals : List Cell) (h : vals.length = fds.length) :
    projectRow L fp dbname fds vals =
        ((specMetricColumns L fp fds vals).map fun c =>
          expositionLine L (normalizeName L (fp.prefixMetric ++ "_" ++ c.1))
            (labelBlock L (specLabelPairs L fp fds vals) dbname) c.2) ∧
      (projectRow L fp dbname fds vals).length = (specMetricColumns L fp fds vals).length ∧
      (specMetricColumns L fp fds vals = [] → projectRow L fp dbname fds vals = []) := by
  have e := projectRow_eq L fp dbname fds vals h
  refine ⟨e, ?_, ?_⟩
  · rw [e, List.length_map]
  · intro h0
    rw [e, h0]
    rfl

theorem projectRow_one_line_per_metric_column_witness :
    [Cell.str "idle", Cell.integer IntKind.int64 1,
        Cell.float64 (F64.finite false 5 (-1))].length = ["role", "a", "b"].length ∧
      projectRow sampleLib sampleFlags "main" ["role", "a", "b"]
          [Cell.str "idle", Cell.integer IntKind.int64 1, Cell.float64 (F64.finite false 5 (-1))] =
        ["pg_a\x7brole=\"idle\",db=\"main\"\x7d 1\n",
          "pg_b\x7brole=\"idle\",db=\"main\"\x7d 2.5\n"] := by
  refine ⟨by decide, ?_⟩
  refine (projectRow_one_line_per_metric_column sampleLib sampleFlags "main" ["role", "a", "b"]
    [Cell.str "idle", Cell.integer IntKind.int64 1, Cell.float64 (F64.finite false 5 (-1))]
    (by decide)).1.trans ?_
  delta specLabelPairs columnLabel
  simp only [normalizeName_fun]
  decide

/-- C2 as stated fails: for the database name `a"b` the database label of the emitted
line is the quoted text `"a\"b"`, not the name verbatim between double quotes. -/
theorem db_label_not_verbatim :
    projectRow sampleLib sampleFlags "a\"b" ["cnt"] [Cell.integer IntKind.int64 7] =
        ["pg_cnt\x7bdb=\"a\\\"b\"\x7d 7\n"] ∧
      expositionLine sampleLib "pg_cnt" (verbatimLabelBlock [] "a\"b") (F64.ofInt 7) =
        "pg_cnt\x7bdb=\"a\"b\"\x7d 7\n" ∧
      projectRow sampleLib sampleFlags "a\"b" ["cnt"] [Cell.integer IntKind.int64 7] ≠
        [expositionLine sampleLib "pg_cnt" (verbatimLabelBlock [] "a\"b") (F64.ofInt 7)] := by
  have e : projectRow sampleLib sampleFlags "a\"b" ["cnt"] [Cell.integer IntKind.int64 7] =
      ["pg_cnt\x7bdb=\"a\\\"b\"\x7d 7\n"] := by
    refine (projectRow_eq sampleLib sampleFlags "a\"b" ["cnt"] [Cell.integer IntKind.int64 7]
      (by decide)).trans ?_
    delta specLabelPairs columnLabel
    simp only [normalizeName_fun]
    decide
  refine ⟨e, by decide, ?_⟩
  rw [e]
  decide

/-- C2, amended: for every database name `d` and every row whose value count matches the
column descriptors, the label builder holds the collected `name="value"` pairs in
column-walk order joined by single commas, values unescaped; every emitted line carries
the block `db=Q` when no pair was collected and `<pairs>,db=Q` otherwise, where `Q` is `d`
as `%q` quotes it; the database label is always present and last, and `Q` is `d` verbatim
between double quotes whenever `d` has only printable characters other than the double
quote and the backslash. -/
theorem projectRow_label_block (L : GoLib) (fp : FlagParam) (dbname : String)
    (fds : List String) (vals : List Cell) (h : vals.length = fds.length) :
    (walkRow L (buildMetas L fp fds) vals).lb =
        String.intercalate "," (specLabelPairs L fp fds vals) ∧
      projectRow L fp dbname fds vals =
        ((walkRow L (buildMetas L fp fds) vals).metricsBuf.map fun it =>
          expositionLine L it.name
            (if specLabelPairs L fp fds vals = [] then "db=" ++ quote L dbname
              else String.intercalate "," (specLabelPairs L fp fds vals) ++ ",db=" ++
                quote L dbname) it.val) ∧
      (plainText L dbname = true → quote L dbname = "\"" ++ dbname ++ "\"") := by
  refine ⟨by rw [walkRow_eq L fp fds vals h], ?_, quote_plain L dbname⟩
  rw [projectRow_eq L fp dbname fds vals h, walkRow_eq L fp fds vals h, List.map_map]
  rfl

theorem projectRow_label_block_witness :
    [Cell.str "abc", Cell.integer IntKind.int64 7].length = ["name", "cnt"].length ∧
      plainText sampleLib "main" = true ∧
      projectRow sampleLib sampleFlags "main" ["name", "cnt"]
          [Cell.str "abc", Cell.integer IntKind.int64 7] =
        ["pg_cnt\x7bname=\"abc\",db=\"main\"\x7d 7\n"] := by
  have t := projectRow_label_block sampleLib sampleFlags "main" ["name", "cnt"]
    [Cell.str "abc", Cell.integer IntKind.int64 7] (by decide)
  refine ⟨by decide, by decide, ?_⟩
  rw [t.2.1, t.2.2 (by decide)]
  simp only [walkRow, buildMetas, buildMetasFrom, mkMeta]
  delta specLabelPairs columnLabel
  simp only [normalizeName_fun]
  decide

theorem specMetricColumns_nil_of_labels_only (L : GoLib) (fp : FlagParam) (fds : List String)
    (vals : List Cell)
    (h : ∀ name ∈ fds, isIgnored fp name = true ∨ isForced fp name = true) :
    specMetricColumns L fp fds vals = [] := by
  unfold specMetricColumns
  rw [List.filterMap_eq_nil_iff]
  intro c hc
  have hmem : c.1 ∈ fds := (List.of_mem_zip hc).1
  unfold columnMetric
  rcases h c.1 hmem with h1 | h1 <;> simp [h1]

/-- C3: in the column walk an ignored column contributes neither a label pair nor a
metric, also when it is in the forced-label list; a column that is not ignored and is a
forced label contributes exactly one label pair and no metric, also when its cell is
numeric; only otherwise the type decides (string or bytes: one label pair; any other cell:
one metric when it coerces to a finite number, else nothing). So a column contributes at
most one of a label pair and a metric, and a row whose non-ignored columns are all forced
labels produces no line. -/
theorem walkColumn_precedence (L : GoLib) (fp : FlagParam) (vals : List Cell) (acc : RowAcc)
    (i : Nat) (name : String) (v : Cell) :
    (isIgnored fp name = true →
        walkColumn L vals acc (mkMeta L fp (makeForcedLabelsSet fp.labelColumnsArr) i name) =
          acc) ∧
      (isIgnored fp name = false → isForced fp name = true → vals.get? i = some v →
        walkColumn L vals acc (mkMeta L fp (makeForcedLabelsSet fp.labelColumnsArr) i name) =
          ⟨acc.lb ++ (if acc.first then "" else ",") ++
            (normalizeName L name ++ "=\"" ++ labelVal L v ++ "\""), false, acc.metricsBuf⟩) ∧
      (isIgnored fp name = false → isForced fp name = false → vals.get? i = some v →
        walkColumn L vals acc (mkMeta L fp (makeForcedLabelsSet fp.labelColumnsArr) i name) =
          if v.isText then
            ⟨acc.lb ++ (if acc.first then "" else ",") ++
              (normalizeName L name ++ "=\"" ++ labelVal L v ++ "\""), false, acc.metricsBuf⟩
          else
            match metricValue L v with
            | some f =>
              ⟨acc.lb, acc.first,
                acc.metricsBuf ++ [⟨normalizeName L (fp.prefixMetric ++ "_" ++ name), f⟩]⟩
            | none => acc) ∧
      ((walkColumn L vals acc
            (mkMeta L fp (makeForcedLabelsSet fp.labelColumnsArr) i name)).metricsBuf =
          acc.metricsBuf ∨
        ((walkColumn L vals acc
            (mkMeta L fp (makeForcedLabelsSet fp.labelColumnsArr) i name)).lb = acc.lb ∧
          (walkColumn L vals acc
            (mkMeta L fp (makeForcedLabelsSet fp.labelColumnsArr) i name)).first = acc.first)) ∧
      (∀ (dbname : String) (fds : List String) (row : List Cell),
        row.length = fds.length →
        (∀ n ∈ fds, isIgnored fp n = true ∨ isForced fp n = true) →
          projectRow L fp dbname fds row = []) := by
  refine ⟨?_, ?_, ?_, ?_, ?_⟩
  · intro hi
    simp [walkColumn, mkMeta, hi]
  · intro hi hf hv
    have hv2 : vals[i]? = some v := by simpa using hv
    have hf2 : name ∈ makeForcedLabelsSet fp.labelColumnsArr := by simpa [isForced] using hf
    simp [walkColumn, mkMeta, hi, hf2, hv2, addLabel, labelPair]
  · intro hi hf hv
    have hv2 : vals[i]? = some v := by simpa using hv
    have hf2 : name ∉ makeForcedLabelsSet fp.labelColumnsArr := by simpa [isForced] using hf
    simp only [walkColumn, mkMeta, hi, Bool.false_eq_true, if_false, List.get?_eq_getElem?, hv2,
      hf2, decide_False, addLabel, labelPair]
  · unfold walkColumn
    split
    · exact Or.inl rfl
    · split
      · exact Or.inl rfl
      · split
        · exact Or.inl rfl
        · split
          · exact Or.inl rfl
          · split
            · exact Or.inr ⟨rfl, rfl⟩
            · exact Or.inl rfl
  · intro dbname fds row hlen hall
    rw [projectRow_eq L fp dbname fds row hlen,
      specMetricColumns_nil_of_labels_only L fp fds row hall]
    rfl

theorem walkColumn_precedence_witness :
    isIgnored { sampleFlags with labelColumnsArr := ["x"], ignoredColumns := some [("x", true)] }
        "x" = true ∧
      isForced { sampleFlags with labelColumnsArr := ["x"], ignoredColumns := some [("x", true)] }
        "x" = true ∧
      walkRow sampleLib
          (buildMetas sampleLib
            { sampleFlags with labelColumnsArr := ["x"], ignoredColumns := some [("x", true)] }
            ["x"])
          [Cell.str "abc"] = ⟨"", true, []⟩ ∧
      projectRow sampleLib
          { sampleFlags with labelColumnsArr := ["x"], ignoredColumns := some [("x", true)] }
          "main" ["x"] [Cell.str "abc"] = [] ∧
      projectRow sampleLib { sampleFlags with labelColumnsArr := ["n"] } "d" ["n"]
          [Cell.integer IntKind.int64 42] = [] := by
  have t1 := walkColumn_precedence sampleLib
    { sampleFlags with labelColumnsArr := ["x"], ignoredColumns := some [("x", true)] }
    [Cell.str "abc"] ⟨"", true, []⟩ 0 "x" (Cell.str "abc")
  have t2 := walkColumn_precedence sampleLib { sampleFlags with labelColumnsArr := ["n"] }
    [Cell.integer IntKind.int64 42] ⟨"", true, []⟩ 0 "n" (Cell.integer IntKind.int64 42)
  refine ⟨by decide, by decide, ?_, ?_, ?_⟩
  · exact t1.1 (by decide)
  · exact t1.2.2.2.2 "main" ["x"] [Cell.str "abc"] (by decide) (by decide)
  · exact t2.2.2.2.2 "d" ["n"] [Cell.integer IntKind.int64 42] (by decide) (by decide)

theorem columnLabel_none_of_metric_column (L : GoLib) (fp : FlagParam) (name : String)
    (v : Cell) (hf : isForced fp name = false) (ht : v.isText = false) :
    columnLabel L fp (name, v) = none := by
  unfold columnLabel
  cases isIgnored fp name <;> simp [hf, ht]

theorem columnMetric_none_of_non_finite (L : GoLib) (fp : FlagParam) (name : String)
    (v : Cell) (h : (toFloat64 L v).1.isNaN = true ∨ (toFloat64 L v).1.isInf = true) :
    columnMetric L fp (name, v) = none := by
  unfold columnMetric
  split
  · rfl
  · rw [metricValue_non_finite L v h]
    rfl

/-- C4: the row projector never emits a line whose value is NaN or an infinity: every
emitted line is the line of a buffered metric whose value is neither; and a metric column
(not a forced label, not of string or bytes type) whose cell coerces to NaN or an infinity
is dropped: the row prints exactly what it prints without that column, so the other
metric columns are still emitted, with the unchanged label block. -/
theorem projectRow_drops_non_finite (L : GoLib) (fp : FlagParam) (dbname : String) :
    (∀ (fds : List String) (vals : List Cell) (line : String),
        line ∈ projectRow L fp dbname fds vals →
          ∃ it : MVal, it.val.isNaN = false ∧ it.val.isInf = false ∧
            line = formatLine L (walkRow L (buildMetas L fp fds) vals).lb dbname it) ∧
      (∀ (fpre fpost : List String) (vpre vpost : List Cell) (name : String) (v : Cell),
        vpre.length = fpre.length → vpost.length = fpost.length →
        isForced fp name = false → v.isText = false →
        ((toFloat64 L v).1.isNaN = true ∨ (toFloat64 L v).1.isInf = true) →
          projectRow L fp dbname (fpre ++ name :: fpost) (vpre ++ v :: vpost) =
            projectRow L fp dbname (fpre ++ fpost) (vpre ++ vpost)) := by
  constructor
  · intro fds vals line hline
    unfold projectRow at hline
    split at hline
    · cases hline
    · obtain ⟨it, hit, rfl⟩ := List.mem_map.mp hline
      have hfin := walkRow_finite L (buildMetas L fp fds) vals it hit
      exact ⟨it, hfin.1, hfin.2, rfl⟩
  · intro fpre fpost vpre vpost name v hpre hpost hf ht hnf
    have hl1 : (vpre ++ v :: vpost).length = (fpre ++ name :: fpost).length := by
      simp [hpre, hpost]
    have hl2 : (vpre ++ vpost).length = (fpre ++ fpost).length := by
      simp [hpre, hpost]
    rw [projectRow_eq L fp dbname _ _ hl1, projectRow_eq L fp dbname _ _ hl2]
    have e1 : specMetricColumns L fp (fpre ++ name :: fpost) (vpre ++ v :: vpost) =
        specMetricColumns L fp (fpre ++ fpost) (vpre ++ vpost) := by
      unfold specMetricColumns
      rw [zip_append_cons _ _ _ _ _ _ hpre, zip_append_same _ _ _ _ hpre, List.filterMap_append,
        List.filterMap_cons, columnMetric_none_of_non_finite L fp name v hnf,
        List.filterMap_append]
    have e2 : specLabelPairs L fp (fpre ++ name :: fpost) (vpre ++ v :: vpost) =
        specLabelPairs L fp (fpre ++ fpost) (vpre ++ vpost) := by
      unfold specLabelPairs
      rw [zip_append_cons _ _ _ _ _ _ hpre, zip_append_same _ _ _ _ hpre, List.filterMap_append,
        List.filterMap_cons, columnLabel_none_of_metric_column L fp name v hf ht,
        List.filterMap_append]
    rw [e1, e2]

theorem projectRow_drops_non_finite_witness :
    isForced sampleFlags "y" = false ∧ (Cell.float64 (F64.inf false)).isText = false ∧
      (toFloat64 sampleLib (Cell.float64 (F64.inf false))).1.isInf = true ∧
      projectRow sampleLib sampleFlags "main" ["x", "y", "z"]
          [Cell.float64 F64.nan, Cell.float64 (F64.inf false), Cell.integer IntKind.int64 1] =
        ["pg_z\x7bdb=\"main\"\x7d 1\n"] := by
  have t := projectRow_drops_non_finite sampleLib sampleFlags "main"
  have e1 := t.2 ["x"] ["z"] [Cell.float64 F64.nan] [Cell.integer IntKind.int64 1] "y"
    (Cell.float64 (F64.inf false)) (by decide) (by decide) (by decide) (by decide)
    (Or.inr (by decide))
  have e2 := t.2 [] ["z"] [] [Cell.integer IntKind.int64 1] "x"
    (Cell.float64 F64.nan) (by decide) (by decide) (by decide) (by decide)
    (Or.inl (by decide))
  refine ⟨by decide, by decide, by decide, ?_⟩
  refine e1.trans (e2.trans ?_)
  simp only [List.nil_append, projectRow, buildMetas, buildMetasFrom, mkMeta, normalizeName_fun]
  decide

/-! ## The claims on the value classifier -/

/-- C9 as stated fails: `toFloat64` returns a NaN cell and an infinite cell unchanged with
`ok = true`. -/
theorem toFloat64_accepts_non_finite :
    toFloat64 sampleLib (Cell.float64 F64.nan) = (F64.nan, true) ∧
      F64.isNaN (toFloat64 sampleLib (Cell.float64 F64.nan)).1 = true ∧
      toFloat64 sampleLib (Cell.float64 (F64.inf false)) = (F64.inf false, true) ∧
      F64.isInf (toFloat64 sampleLib (Cell.float64 (F64.inf false))).1 = true := by
  decide

/-- C9, amended: the numeric coercion as the row projector uses it, `toFloat64` followed
by the guard `ok && !IsNaN(f) && !IsInf(f, 0)`, never yields a NaN or infinite value as a
usable number: a value it yields is the float `toFloat64` returned with `ok = true` and is
finite; `toFloat64` alone returns a float cell unchanged with `ok = true`; and
`toFloat64(nil)` returns `ok = false`. -/
theorem metricValue_finite (L : GoLib) :
    (∀ (v : Cell) (f : F64), metricValue L v = some f →
        toFloat64 L v = (f, true) ∧ f.isNaN = false ∧ f.isInf = false) ∧
      (∀ x : F64, toFloat64 L (Cell.float64 x) = (x, true)) ∧
      (toFloat64 L Cell.null).2 = false ∧ metricValue L Cell.null = none :=
  ⟨metricValue_eq_some L, fun _ => rfl, rfl, rfl⟩

theorem metricValue_finite_witness :
    metricValue sampleLib (Cell.integer IntKind.int64 7) = some (F64.finite false 7 0) ∧
      toFloat64 sampleLib (Cell.integer IntKind.int64 7) = (F64.finite false 7 0, true) ∧
      F64.isNaN (F64.finite false 7 0) = false ∧ F64.isInf (F64.finite false 7 0) = false :=
  ⟨by decide, (metricValue_finite sampleLib).1 (Cell.integer IntKind.int64 7)
    (F64.finite false 7 0) (by decide)⟩

/-! ## The role gate and the fan-out driver: proofs -/

theorem checkDbRoleOnce_reading (fp : FlagParam) (env : RunEnv) (r : Int)
    (hc : env.roleConnect = none) (hq : env.roleQuery = .ok (some (.ok r), none)) :
    checkDbRoleOnce fp env =
      if r = 0 ∧ fp.masterOnly = true then some masterOnlyError
      else if r = 1 ∧ fp.replicaOnly = true then some replicaOnlyError
      else none := by
  simp only [checkDbRoleOnce, hc, hq]

theorem fanOut_live (jobs : Int) (env : RunEnv) (hctx : ∀ k, env.ctxErr k = none)
    (hjobs : 1 ≤ jobs) :
    ∀ (dbs : List String) (k : Nat),
      (fanOut jobs env k dbs).started = dbs ∧
        (fanOut jobs env k dbs).finish = .returned none ∧
        (fanOut jobs env k dbs).stdout =
          ((dbs.enumFrom k).map fun p => (env.pass p.1 p.2).stdout).flatten := by
  intro dbs
  induction dbs with
  | nil =>
    intro k
    simp [fanOut, hctx k]
  | cons name rest ih =>
    intro k
    have hj : ¬ jobs < 1 := by omega
    obtain ⟨h1, h2, h3⟩ := ih (k + 1)
    simp only [fanOut, hctx k, if_neg hj, h1, h2, h3, List.enumFrom_cons, List.map_cons,
      List.flatten_cons, and_self]

/-! ## The claims on the role gate and the fan-out driver -/

/-- C5: for a probe reading `r`, when `master_only` is set and `r = 0`, or `replica_only`
is set and `r = 1`, Run returns an error, starts no per-database pass and emits no sample
line; when the database list resolves, the error is the master-only error for `r = 0`
(also with both flags set) and the replica-only error for `r = 1`; the master-only message
contains `master-only` and differs from the replica-only message. -/
theorem run_role_gate (fp : FlagParam) (env : RunEnv) (r : Int)
    (hc : env.roleConnect = none) (hq : env.roleQuery = .ok (some (.ok r), none))
    (hmis : (fp.masterOnly = true ∧ r = 0) ∨ (fp.replicaOnly = true ∧ r = 1)) :
    (∃ e, (Run fp env).finish = .returned (some e)) ∧
      (Run fp env).started = [] ∧ (Run fp env).stdout = [] ∧
      checkDbRoleOnce fp env = some (if r = 0 then masterOnlyError else replicaOnlyError) ∧
      (∀ dbs, resolveDBList fp env = .ok dbs →
        (Run fp env).finish =
          .returned (some (if r = 0 then masterOnlyError else replicaOnlyError))) ∧
      contains masterOnlyError "master-only" = true ∧
      contains replicaOnlyError "master-only" = false ∧
      masterOnlyError ≠ replicaOnlyError := by
  have hgate : checkDbRoleOnce fp env =
      some (if r = 0 then masterOnlyError else replicaOnlyError) := by
    rw [checkDbRoleOnce_reading fp env r hc hq]
    rcases hmis with ⟨hm, h0⟩ | ⟨hr, h1⟩
    · simp [hm, h0]
    · subst h1
      simp [hr]
  have hflag : (fp.masterOnly || fp.replicaOnly) = true := by
    rcases hmis with ⟨hm, _⟩ | ⟨hr, _⟩
    · simp [hm]
    · simp [hr]
  have hrun : ∀ dbs, resolveDBList fp env = .ok dbs →
      Run fp env =
        ⟨[], [], [], .returned (some (if r = 0 then masterOnlyError else replicaOnlyError))⟩ := by
    intro dbs hres
    simp only [Run, hres, hflag, if_true, hgate]
  refine ⟨?_, ?_, ?_, hgate, fun dbs hres => by rw [hrun dbs hres], by decide, by decide,
    by decide⟩
  · cases hres : resolveDBList fp env with
    | error e => exact ⟨e, by simp only [Run, hres]⟩
    | ok dbs => exact ⟨_, by rw [hrun dbs hres]⟩
  · cases hres : resolveDBList fp env with
    | error e => simp only [Run, hres]
    | ok dbs => rw [hrun dbs hres]
  · cases hres : resolveDBList fp env with
    | error e => simp only [Run, hres]
    | ok dbs => rw [hrun dbs hres]

theorem run_role_gate_witness :
    sampleEnv.roleConnect = none ∧ sampleEnv.roleQuery = .ok (some (.ok 0), none) ∧
      (Run { sampleFlags with masterOnly := true, replicaOnly := true, datname := ["all"] }
          sampleEnv).finish =
        .returned (some "INFO: --master-only requested but node is replica") ∧
      (Run { sampleFlags with masterOnly := true, replicaOnly := true, datname := ["all"] }
          sampleEnv).started = [] ∧
      (Run { sampleFlags with masterOnly := true, replicaOnly := true, datname := ["all"] }
          sampleEnv).stdout = [] :=
  have t := run_role_gate
    { sampleFlags with masterOnly := true, replicaOnly := true, datname := ["all"] }
    sampleEnv 0 rfl rfl (Or.inl ⟨rfl, rfl⟩)
  ⟨rfl, rfl, t.2.2.2.2.1 ["db1", "db2", "db3"] rfl, t.2.1, t.2.2.1⟩

/-- C10: for every resolved database list and every assignment of outcomes (success,
error, fault) to the per-database passes, when database resolution and the role gate
succeed, the parent context is not cancelled and the worker budget is at least one, Run
starts the pass once for each database of the list, in order, and returns no error; the
lines of every pass are written whatever the other passes do. -/
theorem run_isolates_database_failures (fp : FlagParam) (env : RunEnv) (dbs : List String)
    (hres : resolveDBList fp env = .ok dbs)
    (hgate : (fp.masterOnly || fp.replicaOnly) = true → checkDbRoleOnce fp env = none)
    (hctx : ∀ k, env.ctxErr k = none) (hjobs : 1 ≤ fp.jobs)
    (pass : Nat → String → PassResult) :
    (Run fp { env with pass := pass }).started = dbs ∧
      (Run fp { env with pass := pass }).finish = .returned none ∧
      (Run fp { env with pass := pass }).stdout =
        (dbs.enum.map fun p => (pass p.1 p.2).stdout).flatten := by
  have hres2 : resolveDBList fp { env with pass := pass } = .ok dbs := hres
  have hg : (if (fp.masterOnly || fp.replicaOnly) = true
      then checkDbRoleOnce fp { env with pass := pass } else none) = none := by
    by_cases hf : (fp.masterOnly || fp.replicaOnly) = true
    · rw [if_pos hf]; exact hgate hf
    · rw [if_neg hf]
  have hrun : Run fp { env with pass := pass } =
      fanOut fp.jobs { env with pass := pass } 0 dbs := by
    simp only [Run, hres2, hg]
  rw [hrun]
  exact fanOut_live fp.jobs { env with pass := pass } hctx hjobs dbs 0

theorem run_isolates_database_failures_witness :
    resolveDBList { sampleFlags with datname := ["all"] } sampleEnv = .ok ["db1", "db2", "db3"] ∧
      (1 : Int) ≤ ({ sampleFlags with datname := ["all"] } : FlagParam).jobs ∧
      (Run { sampleFlags with datname := ["all"] } sampleEnv).started = ["db1", "db2", "db3"] ∧
      (Run { sampleFlags with datname := ["all"] } sampleEnv).finish = .returned none :=
  have t := run_isolates_database_failures { sampleFlags with datname := ["all"] } sampleEnv
    ["db1", "db2", "db3"] rfl (by intro h; exact absurd h (by decide)) (fun _ => rfl)
    (by decide) sampleEnv.pass
  ⟨rfl, by decide, t.1, t.2.1⟩

/-- The result has no two adjacent underscores and does not start with a digit. -/
theorem normalizeName_shape (L : GoLib) (s : String) :
    contains (normalizeName L s) "__" = false ∧ startsWithDigit (normalizeName L s) = false := by
  rw [normalizeName_eq_spec]
  have hnp := specCollapseRuns_no_pair (specReplaceSeparators (toLower L s).data)
  unfold specNormalizeName
  simp only []
  generalize specCollapseRuns (specReplaceSeparators (toLower L s).data) = t at hnp
  cases t with
  | nil => exact ⟨rfl, rfl⟩
  | cons c t =>
    simp only []
    cases hc : c.isDigit with
    | false =>
      simp only [Bool.false_eq_true, if_false]
      refine ⟨hnp, ?_⟩
      show decide ('0'.toNat ≤ c.toNat ∧ c.toNat ≤ '9'.toNat) = false
      rw [digit_test_eq_isDigit, hc]
    | true =>
      simp only [if_true]
      have hne : c ≠ '_' := by
        intro h
        rw [h] at hc
        exact absurd hc (by decide)
      refine ⟨?_, rfl⟩
      show containsAux ['_', '_'] ('_' :: c :: t) = false
      rw [containsAux_pair_cons_cons, hnp]
      simp only [Bool.or_false, decide_eq_false_iff_not]
      exact fun h => hne h.2

set_option maxRecDepth 100000 in
theorem nameChar_table : ∀ n, n < 128 → isNameChar (Char.ofNat n) = true →
    isIdentChar (if (Char.ofNat n).toLower = '-' ∨ (Char.ofNat n).toLower = '.' ∨
      (Char.ofNat n).toLower = ' ' then '_' else (Char.ofNat n).toLower) = true := by
  decide

theorem nameChar_ascii (c : Char) (h : isNameChar c = true) : c.toNat < 128 := by
  simp only [isNameChar, Char.isAlphanum, Char.isAlpha, Char.isUpper, Char.isLower, Char.isDigit,
    Bool.or_eq_true, Bool.and_eq_true, decide_eq_true_eq, ge_iff_le, UInt32.le_def] at h
  have e : c.toNat = c.val.toNat := rfl
  rcases h with (((h | h) | h) | h) | h
  · rcases h with (h | h) | h
    · have h2 := h.2
      change c.val.toNat ≤ 90 at h2
      omega
    · have h2 := h.2
      change c.val.toNat ≤ 122 at h2
      omega
    · have h2 := h.2
      change c.val.toNat ≤ 57 at h2
      omega
  · rw [h]; decide
  · rw [h]; decide
  · rw [h]; decide
  · rw [h]; decide

/-- On names made of letters, digits, `_`, `-`, `.` and space the normaliser does return
the empty text or an identifier. -/
theorem normalizeName_identifier_of_nameChars (L : GoLib) (s : String)
    (h : s.data.all isNameChar = true) :
    normalizeName L s = "" ∨ isIdentifier (normalizeName L s) = true := by
  rw [normalizeName_eq_spec]
  have hall : ∀ c ∈ specCollapseRuns (specReplaceSeparators (toLower L s).data),
      isIdentChar c = true := by
    intro c hc
    have hc2 := specCollapseRuns_mem _ c hc
    simp only [specReplaceSeparators, toLower, List.map_map, List.mem_map, Function.comp] at hc2
    obtain ⟨a, ha, rfl⟩ := hc2
    have hn : isNameChar a = true := (List.all_eq_true.mp h) a ha
    have hlt := nameChar_ascii a hn
    have hlow : toLowerRune L a = a.toLower := by
      rw [toLowerRune, if_pos (by omega)]
    rw [hlow]
    have := nameChar_table a.toNat hlt
    rw [Char.ofNat_toNat] at this
    exact this hn
  unfold specNormalizeName
  simp only []
  generalize specCollapseRuns (specReplaceSeparators (toLower L s).data) = t at hall
  cases t with
  | nil => exact Or.inl rfl
  | cons c t =>
    right
    simp only []
    have hc := hall c (List.mem_cons_self _ _)
    have ht : t.all (fun d => decide (d = '_') || d.isLower || d.isDigit) = true :=
      List.all_eq_true.mpr fun d hd => hall d (List.mem_cons_of_mem _ hd)
    cases hd : c.isDigit with
    | false =>
      simp only [Bool.false_eq_true, if_false]
      show ((decide (c = '_') || c.isLower) &&
        t.all (fun d => decide (d = '_') || d.isLower || d.isDigit)) = true
      rw [ht, Bool.and_true]
      simpa [isIdentChar, hd] using hc
    | true =>
      simp only [if_true]
      show ((decide (('_' : Char) = '_') || ('_' : Char).isLower) &&
        (c :: t).all (fun d => decide (d = '_') || d.isLower || d.isDigit)) = true
      rw [List.all_cons, ht]
      simp [hd]

/-! ## The claims on the name normaliser -/

/-- C6: normalizeName is idempotent: `normalizeName(normalizeName(s)) = normalizeName(s)`
for every string `s`, the case table of the library mapping lower-case images to
themselves. -/
theorem normalizeName_idempotent (L : GoLib) (hL : LowerTableStable L) (s : String) :
    normalizeName L (normalizeName L s) = normalizeName L s := by
  rw [normalizeName_eq_spec L s, normalizeName_eq_spec L (specNormalizeName L s)]
  exact specNormalizeName_idem L hL s

theorem normalizeName_idempotent_witness :
    LowerTableStable sampleLib ∧
      normalizeName sampleLib (normalizeName sampleLib "My-Column.Name 123") =
        normalizeName sampleLib "My-Column.Name 123" :=
  ⟨sampleLib_stable, normalizeName_idempotent sampleLib sampleLib_stable "My-Column.Name 123"⟩

/-- C7: at the column name `?column?` normalizeName returns the name unchanged, a text that
is neither empty nor of the form `[_a-z][_a-z0-9]*`: characters other than letters,
digits, `-`, `.`, space and `_` pass through the normaliser. The other two parts hold for
every input: the result has no two adjacent underscores and no leading digit. -/
theorem normalizeName_keeps_foreign_chars (L : GoLib) :
    normalizeName L "?column?" = "?column?" ∧
      normalizeName L "?column?" ≠ "" ∧
      isIdentifier (normalizeName L "?column?") = false ∧
      (∀ s : String, contains (normalizeName L s) "__" = false ∧
        startsWithDigit (normalizeName L s) = false) := by
  have h : normalizeName L "?column?" = "?column?" := by
    rw [normalizeName_eq_spec]
    rfl
  rw [h]
  exact ⟨rfl, by decide, by decide, normalizeName_shape L⟩

/-- C8: normalizeName terminates and computes the reference transformation (lowercase;
`-`, `.` and space to `_`; every maximal run of `_` to one `_`; a leading `_` exactly for
a non-empty digit-leading result); the repeated `ReplaceAll("__", "_")` loop equals
one-pass run collapsing and ends with no `__` left; the empty string maps to the empty
string and `My-Column.Name 123` to `my_column_name_123`. -/
theorem normalizeName_refines_spec (L : GoLib) :
    (∀ s : String, normalizeName L s = specNormalizeName L s) ∧
      (∀ s : String, collapseLoop s = ⟨specCollapseRuns s.data⟩ ∧
        contains (collapseLoop s) "__" = false) ∧
      normalizeName L "" = "" ∧
      normalizeName L "My-Column.Name 123" = "my_column_name_123" := by
  refine ⟨normalizeName_eq_spec L, fun s => ⟨collapseLoop_eq_spec s, collapseLoop_no_pair s⟩,
    ?_, ?_⟩
  · rw [normalizeName_eq_spec]; rfl
  · rw [normalizeName_eq_spec]; rfl

/-! ## The claims on the database resolver -/

/-- C11: for every list of names that is empty or whose first element does not fold to
`all`, resolveDBList returns exactly that list (same elements, same order) with no error,
whatever the server would answer, and calls `connectDB` for no database; a later `all` is
returned as a literal name. -/
theorem resolveDBList_literal (fp : FlagParam) (env : RunEnv)
    (h : fp.datname = [] ∨
      ∃ first rest, fp.datname = first :: rest ∧ equalFoldAll first = false) :
    resolveDBList fp env = .ok fp.datname ∧ resolveDBListConnects fp = [] := by
  rcases h with h | ⟨first, rest, h, hf⟩
  · simp only [resolveDBList, resolveDBListConnects, h, and_self]
  · simp only [resolveDBList, resolveDBListConnects, h, hf, Bool.false_eq_true, if_false,
      and_self]

theorem resolveDBList_literal_witness :
    equalFoldAll "db1" = false ∧ equalFoldAll "ALL" = true ∧
      resolveDBList { sampleFlags with datname := ["db1", "all"] }
          { sampleEnv with enumConnect := some "connection refused" } = .ok ["db1", "all"] ∧
      resolveDBListConnects { sampleFlags with datname := ["db1", "all"] } = [] := by
  have t := resolveDBList_literal { sampleFlags with datname := ["db1", "all"] }
    { sampleEnv with enumConnect := some "connection refused" }
    (Or.inr ⟨"db1", ["all"], rfl, by decide⟩)
  exact ⟨by decide, by decide, t.1, t.2⟩

/-! ## The flag surface: proofs -/

theorem trimRight_semicolon (t : String) :
    (∃ n, t.data = (trimRight t ";").data ++ List.replicate n ';') ∧
      (trimRight t ";").data.getLast? ≠ some ';' := by
  have hp : ∀ c : Char, (";" : String).data.contains c = true ↔ c = ';' := by
    intro c
    show [';'].contains c = true ↔ c = ';'
    simp
  constructor
  · refine ⟨(t.data.reverse.takeWhile fun c => (";" : String).data.contains c).length, ?_⟩
    have h1 := List.takeWhile_append_dropWhile (fun c => (";" : String).data.contains c)
      t.data.reverse
    have h2 : t.data = (t.data.reverse.dropWhile fun c => (";" : String).data.contains c).reverse ++
        (t.data.reverse.takeWhile fun c => (";" : String).data.contains c).reverse := by
      rw [← List.reverse_append, h1, List.reverse_reverse]
    have h3 : (t.data.reverse.takeWhile fun c => (";" : String).data.contains c).reverse =
        List.replicate
          (t.data.reverse.takeWhile fun c => (";" : String).data.contains c).length ';' := by
      rw [List.eq_replicate_iff]
      refine ⟨by simp, ?_⟩
      intro b hb
      rw [List.mem_reverse] at hb
      exact (hp b).mp (List.mem_takeWhile_imp hb)
    show t.data = (t.data.reverse.dropWhile fun c => (";" : String).data.contains c).reverse ++ _
    rw [← h3]
    exact h2
  · show ((t.data.reverse.dropWhile fun c => (";" : String).data.contains c).reverse).getLast? ≠
      some ';'
    rw [List.getLast?_reverse]
    intro h
    have := List.head?_dropWhile_not (fun c => (";" : String).data.contains c) t.data.reverse
    rw [h] at this
    simp at this

theorem parseNames_sqlQuery (g : FlagParam) (c : CmdLine) :
    (parseNames g c).sqlQuery = g.sqlQuery := by
  unfold parseNames
  simp only []
  split_ifs <;> rfl

theorem parseRest_sqlQuery (g : FlagParam) (c : CmdLine) :
    (parseRest g c).sqlQuery = g.sqlQuery := by
  unfold parseRest
  simp only []
  split_ifs <;> rfl

theorem ParseFlags_sqlQuery (build : String) (g : FlagParam)
    (readFile : String → Except String String) (c : CmdLine) (fp : FlagParam)
    (cp : ConnectionString) (h : ParseFlags build g readFile c = .parsed fp cp) :
    ∃ t, ((c.sqlCmd ≠ "" ∧ c.sqlFile = "" ∧ t = c.sqlCmd) ∨
        (c.sqlCmd = "" ∧ c.sqlFile ≠ "" ∧ readFile c.sqlFile = .ok t)) ∧
      fp.sqlQuery = sqlTexts g.sqlQuery t c.SQLSpliter := by
  unfold ParseFlags at h
  split at h
  · cases h
  · split at h
    · cases h
    · split at h
      · cases h
      · rename_i hsql
        cases hp : parseSql (parseNames g c) readFile c with
        | error e => rw [hp] at h; cases h
        | ok g5 =>
          rw [hp] at h
          simp only [ParseEnd.parsed.injEq] at h
          have hq : fp.sqlQuery = g5.sqlQuery := by rw [← h.1, parseRest_sqlQuery]
          rw [hq]
          by_cases hcmd : c.sqlCmd = ""
          · have hfile : c.sqlFile ≠ "" := fun e => hsql (Or.inl ⟨hcmd, e⟩)
            cases hr : readFile c.sqlFile with
            | error e => simp [parseSql, hcmd, hfile, hr] at hp
            | ok t =>
              refine ⟨t, Or.inr ⟨hcmd, hfile, rfl⟩, ?_⟩
              simp only [parseSql, hcmd, hfile, hr, ne_eq, not_true_eq_false,
                not_false_eq_true, if_true, if_false, Except.ok.injEq] at hp
              rw [← hp, parseNames_sqlQuery]
          · have hfile : c.sqlFile = "" := by
              by_contra e
              exact hsql (Or.inr ⟨hcmd, e⟩)
            refine ⟨c.sqlCmd, Or.inl ⟨hcmd, hfile, rfl⟩, ?_⟩
            simp only [parseSql, hcmd, hfile, ne_eq, not_true_eq_false, not_false_eq_true,
              if_true, if_false, Except.ok.injEq] at hp
            rw [← hp, parseNames_sqlQuery]

theorem trimRight_eq_trim_one (t : String)
    (h : (specTrimOneSemicolon t).data.getLast? ≠ some ';') :
    trimRight t ";" = specTrimOneSemicolon t := by
  apply String.ext
  unfold specTrimOneSemicolon at h ⊢
  show (t.data.reverse.dropWhile fun c => [';'].contains c).reverse = _
  cases hr : t.data.reverse with
  | nil =>
    rw [hr] at h
    simp only [List.dropWhile_nil, List.reverse_nil]
    have : t.data = [] := by simpa using hr
    rw [this]
  | cons c rest =>
    rw [hr] at h
    simp only []
    by_cases hc : c = ';'
    · subst hc
      simp only [if_true] at h ⊢
      rw [List.getLast?_reverse] at h
      cases rest with
      | nil => simp
      | cons d rest2 =>
        have hd : d ≠ ';' := by
          intro e
          apply h
          rw [e]
          rfl
        simp [List.dropWhile, hd]
    · simp only [if_neg hc]
      have : t.data = (c :: rest).reverse := by
        rw [← hr, List.reverse_reverse]
      rw [this]
      simp [List.dropWhile, hc]

/-! ## The claims on the flag surface -/

/-- C12 as stated fails: for the text `select 1;select 2;;` and the delimiter `;`,
ParseFlags produces `select 1`, `select 2`, while splitting the text with one trailing `;`
removed gives a third, empty statement. -/
theorem ParseFlags_trims_every_semicolon :
    (ParseFlags "dev" zeroFlagParam (fun _ => .error "no file") sampleCmdLine).sqlQuery =
        some ["select 1", "select 2"] ∧
      split (specTrimOneSemicolon sampleCmdLine.sqlCmd) sampleCmdLine.SQLSpliter =
        ["select 1", "select 2", ""] := by
  decide

/-- C12, amended: when ParseFlags returns, with `t` the SQL text (the value of `-sql-cmd`,
or the content of the file of `-sql-file`) and `d` the delimiter: for a non-empty `d` the
SQL texts are the result of splitting on `d` the text obtained from `t` by removing every
trailing `;` and nothing else; for an empty `d` the text `t` is appended unmodified to the
SQL texts held before, so at process start they are the single text `t`. Removing every
trailing `;` is removing one whenever `t` does not end with two of them. -/
theorem ParseFlags_sql_texts (build : String) (g : FlagParam)
    (readFile : String → Except String String) (c : CmdLine) (fp : FlagParam)
    (cp : ConnectionString) (h : ParseFlags build g readFile c = .parsed fp cp) :
    ∃ t, ((c.sqlCmd ≠ "" ∧ c.sqlFile = "" ∧ t = c.sqlCmd) ∨
        (c.sqlCmd = "" ∧ c.sqlFile ≠ "" ∧ readFile c.sqlFile = .ok t)) ∧
      (c.SQLSpliter ≠ "" →
        fp.sqlQuery = split (trimRight t ";") c.SQLSpliter ∧
          (∃ n, t.data = (trimRight t ";").data ++ List.replicate n ';') ∧
          (trimRight t ";").data.getLast? ≠ some ';' ∧
          ((specTrimOneSemicolon t).data.getLast? ≠ some ';' →
            fp.sqlQuery = split (specTrimOneSemicolon t) c.SQLSpliter)) ∧
      (c.SQLSpliter = "" → fp.sqlQuery = g.sqlQuery ++ [t]) ∧
      (c.SQLSpliter = "" → g.sqlQuery = [] → fp.sqlQuery = [t]) := by
  obtain ⟨t, ht, hq⟩ := ParseFlags_sqlQuery build g readFile c fp cp h
  refine ⟨t, ht, ?_, ?_, ?_⟩
  · intro hd
    have e : fp.sqlQuery = split (trimRight t ";") c.SQLSpliter := by
      rw [hq, sqlTexts, if_pos hd]
    refine ⟨e, (trimRight_semicolon t).1, (trimRight_semicolon t).2, ?_⟩
    intro h1
    rw [e, trimRight_eq_trim_one t h1]
  · intro hd
    rw [hq, sqlTexts, if_neg (not_not.mpr hd)]
  · intro hd hg
    rw [hq, sqlTexts, if_neg (not_not.mpr hd), hg]
    rfl

theorem ParseFlags_sql_texts_witness :
    ParseFlags "dev" zeroFlagParam (fun _ => .error "no file") sampleCmdLine =
        .parsed sampleParsed ⟨"user=postgres host=127.0.0.1 port=5435"⟩ ∧
      sampleParsed.sqlQuery = split (trimRight "select 1;select 2;;" ";") ";" ∧
      trimRight "select 1;select 2;;" ";" = "select 1;select 2" := by
  have hrun : ParseFlags "dev" zeroFlagParam (fun _ => .error "no file") sampleCmdLine =
      .parsed sampleParsed ⟨"user=postgres host=127.0.0.1 port=5435"⟩ := rfl
  obtain ⟨t, ht, hs, _, _⟩ := ParseFlags_sql_texts "dev" zeroFlagParam
    (fun _ => .error "no file") sampleCmdLine sampleParsed
    ⟨"user=postgres host=127.0.0.1 port=5435"⟩ hrun
  refine ⟨hrun, ?_, by decide⟩
  rcases ht with ⟨_, _, rfl⟩ | ⟨h0, _, _⟩
  · exact (hs (by decide)).1
  · exact absurd h0 (by decide)

/-! ## The claims on `Run` -/

/-- C13: with a nil FlagParam, and with a nil ConnectionString, `Run` does not return an
error: it faults on the dereference in its first two statements. -/
theorem Run_nil_faults (env : RunEnv) :
    (∀ cp : Option ConnectionString, RunPointers none cp env = .fault nilDereference) ∧
      (∀ fp : FlagParam, RunPointers (some fp) none env = .fault nilDereference) ∧
      RunPointers none (some ⟨"test"⟩) env ≠
        .ran ⟨[], [], [], .returned (some "FlagParam cannot be nil")⟩ :=
  ⟨fun _ => rfl, fun _ => rfl, fun h => by cases h⟩

/-! ## The fan-out driver as a transition system: proofs -/

theorem fanInv_init (jobs : Int) (hjobs : 1 ≤ jobs) (dbs : List String) :
    FanInv jobs dbs (FanState.init dbs) := by
  refine ⟨?_, ?_, ?_, ?_⟩
  · show ((0 : Nat) : Int) ≤ jobs
    omega
  · intro _; rfl
  · intro h; cases h
  · exact List.Perm.refl _

theorem fanInv_step (jobs : Int) (dbs : List String) (s s' : FanState)
    (hinv : FanInv jobs dbs s) (hstep : FanStep jobs s s') : FanInv jobs dbs s' := by
  obtain ⟨hb, hc, hr, hp⟩ := hinv
  cases hstep with
  | cancel => exact ⟨hb, hc, hr, hp⟩
  | enter name rest hret hpend hfree =>
    have hcur := hc (by rw [hret]; intro h; cases h)
    refine ⟨?_, ?_, ?_, ?_⟩
    · show ((name :: s.running).length : Int) ≤ jobs
      simp only [List.length_cons, Nat.cast_add, Nat.cast_one]
      omega
    · intro _
      show s.cur + 1 = ((name :: s.running).length : Int)
      simp only [List.length_cons, Nat.cast_add, Nat.cast_one]
      omega
    · intro h
      rw [hret] at h
      cases h
    · show ((name :: s.running) ++ s.finished.map Prod.fst ++ rest).Perm dbs
      rw [hpend] at hp
      exact (@List.perm_middle String name (s.running ++ s.finished.map Prod.fst)
        rest).symm.trans hp
  | refuse name rest e hret hpend hcan =>
    refine ⟨hb, ?_, ?_, hp⟩
    · intro _
      exact hc (by rw [hret]; intro h; cases h)
    · intro h
      cases h
  | finish name outcome hmem =>
    have hne : s.ret ≠ some none := by
      intro h
      rw [(hr h).1] at hmem
      cases hmem
    have hcur := hc hne
    have hlen : (s.running.erase name).length + 1 = s.running.length := by
      rw [List.length_erase_of_mem hmem]
      have : 0 < s.running.length := List.length_pos_of_mem hmem
      omega
    refine ⟨?_, ?_, ?_, ?_⟩
    · show ((s.running.erase name).length : Int) ≤ jobs
      omega
    · intro _
      show s.cur - 1 = ((s.running.erase name).length : Int)
      omega
    · intro h
      exact absurd h hne
    · show (s.running.erase name ++ ((name, outcome) :: s.finished).map Prod.fst ++
        s.pending).Perm dbs
      have h1 : (s.running.erase name ++ name :: s.finished.map Prod.fst).Perm
          (name :: (s.running.erase name ++ s.finished.map Prod.fst)) := List.perm_middle
      have h2 : (name :: s.running.erase name).Perm s.running :=
        (List.perm_cons_erase hmem).symm
      have h3 : ((name :: s.running.erase name) ++ s.finished.map Prod.fst).Perm
          (s.running ++ s.finished.map Prod.fst) := List.Perm.append_right _ h2
      exact ((h1.trans h3).append_right s.pending).trans hp
  | drain hret hpend hfree =>
    have hcur := hc (by rw [hret]; intro h; cases h)
    have hempty : s.running = [] := by
      apply List.length_eq_zero.mp
      omega
    refine ⟨?_, ?_, ?_, hp⟩
    · exact hb
    · intro h
      exact absurd rfl h
    · intro _
      exact ⟨hempty, hpend⟩
  | drainFail e hret hpend hcan =>
    refine ⟨hb, ?_, ?_, hp⟩
    · intro _
      exact hc (by rw [hret]; intro h; cases h)
    · intro h
      cases h

theorem fanInv_reachable (jobs : Int) (hjobs : 1 ≤ jobs) (dbs : List String) (s : FanState)
    (h : FanReachable jobs dbs s) : FanInv jobs dbs s := by
  induction h with
  | init => exact fanInv_init jobs hjobs dbs
  | step s s' _ hstep ih => exact fanInv_step jobs dbs s s' ih hstep

/-- Without cancellation a run can go to its end: admitting and finishing the databases
one after the other ends with the final acquisition. -/
theorem fan_run_completes (jobs : Int) (hjobs : 1 ≤ jobs) (dbs : List String) :
    ∀ (p : List String) (s : FanState), FanReachable jobs dbs s → s.ret = none →
      s.pending = p → s.running = [] → s.cur = 0 →
      ∃ s', FanReachable jobs dbs s' ∧ s'.ret = some none := by
  intro p
  induction p with
  | nil =>
    intro s hs hret hpend _ hcur
    exact ⟨_, FanReachable.step s _ hs (FanStep.drain s hret hpend (by omega)), rfl⟩
  | cons name rest ih =>
    intro s hs hret hpend hrun hcur
    have h1 := FanReachable.step s _ hs (FanStep.enter s name rest hret hpend (by omega))
    have h2 := FanReachable.step _ _ h1
      (FanStep.finish { s with pending := rest, cur := s.cur + 1, running := name :: s.running }
        name (.done none) (List.mem_cons_self _ _))
    refine ih _ h2 hret rfl ?_ ?_
    · show (name :: s.running).erase name = []
      rw [hrun]
      simp
    · show s.cur + 1 - 1 = 0
      omega

/-! ## The claims on the concurrency of the fan-out driver -/

/-- C14 as stated fails: with budget 1 and the databases `a`, `b`, after the worker of `a`
is admitted and the parent context is cancelled, `Run` returns the error of the second
`Acquire` while the worker of `a` has not terminated. -/
theorem run_returns_while_worker_runs :
    ∃ s : FanState, FanReachable 1 ["a", "b"] s ∧
      s.ret = some (some "failed to acquire semaphore: context canceled") ∧
      s.running = ["a"] := by
  have h0 : FanReachable 1 ["a", "b"] (FanState.init ["a", "b"]) := FanReachable.init
  have h1 := FanReachable.step _ _ h0
    (FanStep.enter (FanState.init ["a", "b"]) "a" ["b"] rfl rfl (by decide))
  have h2 := FanReachable.step _ _ h1 (FanStep.cancel _)
  have h3 := FanReachable.step _ _ h2
    (FanStep.refuse _ "b" [] "context canceled" rfl rfl rfl)
  exact ⟨_, h3, by decide, rfl⟩

/-- C14, amended: for every database list and every budget `jobs >= 1`, in every state
that the fan-out driver can reach, at most `jobs` workers are running; the weight held in
the semaphore is the number of workers that have not terminated, so every worker has
released its slot when it terminates, however it ends; `Run` returns nil only when every
database has been admitted and every admitted worker has terminated (when the parent
context is cancelled `Run` returns the error of `Acquire` at once, also while workers
run); and while `Run` has not returned, a worker is running or the acquisition that `Run`
waits for is possible. -/
theorem fan_out_bounded_and_drained (jobs : Int) (hjobs : 1 ≤ jobs) (dbs : List String)
    (s : FanState) (h : FanReachable jobs dbs s) :
    (s.running.length : Int) ≤ jobs ∧
      (s.ret ≠ some none → s.cur = s.running.length) ∧
      (s.ret = some none →
        s.running = [] ∧ s.pending = [] ∧ (s.finished.map Prod.fst).Perm dbs) ∧
      (s.ret = none →
        s.running ≠ [] ∨ (∃ name rest, s.pending = name :: rest ∧ s.cur + 1 ≤ jobs) ∨
          (s.pending = [] ∧ s.cur + jobs ≤ jobs)) := by
  obtain ⟨hb, hc, hr, hp⟩ := fanInv_reachable jobs hjobs dbs s h
  refine ⟨hb, hc, ?_, ?_⟩
  · intro hret
    obtain ⟨h1, h2⟩ := hr hret
    refine ⟨h1, h2, ?_⟩
    rw [h1, h2] at hp
    simpa using hp
  · intro hret
    have hcur := hc (by rw [hret]; intro h; cases h)
    by_cases hrun : s.running = []
    · right
      have h0 : s.cur = 0 := by rw [hcur, hrun]; rfl
      cases hpend : s.pending with
      | nil => exact Or.inr ⟨rfl, by omega⟩
      | cons name rest => exact Or.inl ⟨name, rest, rfl, by omega⟩
    · exact Or.inl hrun

theorem fan_out_bounded_and_drained_witness :
    (1 : Int) ≤ 2 ∧
      FanReachable 2 ["a", "b", "c"] ⟨["c"], none, 1, ["b"], [("a", .fault "nil map")], false⟩ ∧
      ((["b"] : List String).length : Int) ≤ 2 ∧
      ((none : Option (Option String)) ≠ some none → (1 : Int) = (["b"] : List String).length) := by
  have h0 : FanReachable 2 ["a", "b", "c"] (FanState.init ["a", "b", "c"]) := FanReachable.init
  have h1 := FanReachable.step _ _ h0
    (FanStep.enter (FanState.init ["a", "b", "c"]) "a" ["b", "c"] rfl rfl (by decide))
  have h2 := FanReachable.step _ _ h1 (FanStep.enter _ "b" ["c"] rfl rfl (by decide))
  have h3 : FanReachable 2 ["a", "b", "c"]
      ⟨["c"], none, 1, ["b"], [("a", .fault "nil map")], false⟩ :=
    FanReachable.step _ _ h2 (FanStep.finish _ "a" (.fault "nil map") (by decide))
  have t := fan_out_bounded_and_drained 2 (by decide) ["a", "b", "c"] _ h3
  exact ⟨by decide, h3, t.1, t.2.1⟩

end PgWatcher
